import Mathlib

/-!
Verification of the boom-game scoring store (`src/features/boom/store.ts`) and its
calling policy layer. The TypeScript code is shallowly embedded: JS objects used as
string-keyed records become association lists (`recGet`/`recSet`), the three-game
record becomes `PerGame`, JS numbers produced by parsing Slack timestamps become
exact decimals (`Dec`, compared by value), ISO timestamps stored for crowns become
epoch milliseconds, and the durable file becomes an explicit field next to the
in-memory data. Each definition mirrors one function of the source file.
-/

/-- Lexicographic comparison of character lists by code point, the semantics of the
JS `<` operator on the (ASCII) timestamp and user-id strings compared in the source. -/
def charsLt : List Char → List Char → Bool
  | _, [] => false
  | [], _ :: _ => true
  | a :: as, b :: bs => a.toNat < b.toNat || (a.toNat == b.toNat && charsLt as bs)

/-- JS string `<` (code-unit lexicographic order). -/
def strLt (a b : String) : Bool := charsLt a.data b.data

theorem charsLt_irrefl (l : List Char) : charsLt l l = false := by
  induction l with
  | nil => rfl
  | cons a as ih => simp [charsLt, ih]

theorem charsLt_asymm {a b : List Char} (h : charsLt a b = true) : charsLt b a = false := by
  induction a generalizing b with
  | nil =>
    cases b with
    | nil => simp [charsLt] at h
    | cons x xs => simp [charsLt]
  | cons x xs ih =>
    cases b with
    | nil => simp [charsLt] at h
    | cons y ys =>
      simp only [charsLt, Bool.or_eq_true, Bool.and_eq_true, decide_eq_true_eq, beq_iff_eq] at h
      simp only [charsLt, Bool.or_eq_false_iff, Bool.and_eq_false_iff, decide_eq_false_iff_not,
        beq_eq_false_iff_ne, ne_eq]
      rcases h with h | ⟨he, h⟩
      · exact ⟨by omega, Or.inl (by omega)⟩
      · exact ⟨by omega, Or.inr (ih h)⟩

theorem charsLt_conn {a b : List Char} (h₁ : charsLt a b = false) (h₂ : charsLt b a = false) :
    a = b := by
  induction a generalizing b with
  | nil =>
    cases b with
    | nil => rfl
    | cons y ys => simp [charsLt] at h₁
  | cons x xs ih =>
    cases b with
    | nil => simp [charsLt] at h₂
    | cons y ys =>
      simp only [charsLt, Bool.or_eq_false_iff, Bool.and_eq_false_iff, decide_eq_false_iff_not,
        beq_eq_false_iff_ne, ne_eq] at h₁ h₂
      rcases h₁ with ⟨hx, h₁⟩
      rcases h₂ with ⟨hy, h₂⟩
      have hxy : x.toNat = y.toNat := by omega
      have hc : x = y := by
        apply Char.eq_of_val_eq
        exact UInt32.toNat.inj hxy
      subst hc
      rcases h₁ with h₁ | h₁
      · omega
      · rcases h₂ with h₂ | h₂
        · omega
        · rw [ih h₁ h₂]

theorem charsLt_trans {a b c : List Char} (h₁ : charsLt a b = true) (h₂ : charsLt b c = true) :
    charsLt a c = true := by
  induction a generalizing b c with
  | nil =>
    cases c with
    | nil =>
      cases b with
      | nil => simpa using h₁
      | cons y ys => simp [charsLt] at h₂
    | cons z zs => simp [charsLt]
  | cons x xs ih =>
    cases b with
    | nil => simp [charsLt] at h₁
    | cons y ys =>
      cases c with
      | nil => simp [charsLt] at h₂
      | cons z zs =>
        simp only [charsLt, Bool.or_eq_true, Bool.and_eq_true, decide_eq_true_eq,
          beq_iff_eq] at h₁ h₂ ⊢
        rcases h₁ with h₁ | ⟨he₁, h₁⟩
        · rcases h₂ with h₂ | ⟨he₂, h₂⟩
          · exact Or.inl (by omega)
          · exact Or.inl (by omega)
        · rcases h₂ with h₂ | ⟨he₂, h₂⟩
          · exact Or.inl (by omega)
          · exact Or.inr ⟨by omega, ih h₁ h₂⟩

theorem strLt_irrefl (s : String) : strLt s s = false := charsLt_irrefl _

theorem strLt_asymm {a b : String} (h : strLt a b = true) : strLt b a = false :=
  charsLt_asymm h

theorem strLt_conn {a b : String} (h₁ : strLt a b = false) (h₂ : strLt b a = false) : a = b := by
  have := charsLt_conn h₁ h₂
  cases a; cases b; simp_all

theorem strLt_trans {a b c : String} (h₁ : strLt a b = true) (h₂ : strLt b c = true) :
    strLt a c = true := charsLt_trans h₁ h₂

/-- A JS number arising from parsing a decimal literal, represented exactly:
the value is `num / 10 ^ exp`. The source only ever compares these numbers
(`<`, `===`), so the float64 rounding of the original is not modelled; comparisons
are by numeric value via `Dec.lt` / `Dec.eqv`. -/
structure Dec where
  num : Int
  exp : Nat
deriving DecidableEq

/-- Numeric `<` on parsed timestamps (JS `a < b`). -/
def Dec.lt (a b : Dec) : Bool := a.num * 10 ^ b.exp < b.num * 10 ^ a.exp

/-- Numeric equality on parsed timestamps (JS `a === b` on numbers). -/
def Dec.eqv (a b : Dec) : Bool := a.num * 10 ^ b.exp == b.num * 10 ^ a.exp

/-- The rational value of a `Dec`; proof-side only. -/
def Dec.toQ (d : Dec) : ℚ := (d.num : ℚ) / 10 ^ d.exp

theorem Dec.lt_iff (a b : Dec) : Dec.lt a b = true ↔ a.toQ < b.toQ := by
  unfold Dec.lt Dec.toQ
  rw [div_lt_div_iff₀ (by positivity) (by positivity)]
  constructor
  · intro h
    exact_mod_cast of_decide_eq_true (by simpa using h)
  · intro h
    simpa using decide_eq_true (show (a.num * 10 ^ b.exp : Int) < b.num * 10 ^ a.exp by
      exact_mod_cast h)

theorem Dec.eqv_iff (a b : Dec) : Dec.eqv a b = true ↔ a.toQ = b.toQ := by
  unfold Dec.eqv Dec.toQ
  rw [div_eq_div_iff (by positivity) (by positivity)]
  constructor
  · intro h
    exact_mod_cast (beq_iff_eq.mp h : (a.num * 10 ^ b.exp : Int) = b.num * 10 ^ a.exp)
  · intro h
    exact beq_iff_eq.mpr (by exact_mod_cast h)

theorem Dec.lt_eqv_false {a b : Dec} (h : Dec.lt a b = true) : Dec.eqv a b = false := by
  rw [Dec.lt_iff] at h
  by_contra hc
  rw [Bool.not_eq_false, Dec.eqv_iff] at hc
  exact absurd hc (ne_of_lt h)

theorem Dec.not_lt_not_gt_eqv {a b : Dec} (h₁ : Dec.lt a b = false) (h₂ : Dec.lt b a = false) :
    Dec.eqv a b = true := by
  rw [Dec.eqv_iff]
  have l₁ : ¬ a.toQ < b.toQ := fun hl => by simp [(Dec.lt_iff a b).mpr hl] at h₁
  have l₂ : ¬ b.toQ < a.toQ := fun hl => by simp [(Dec.lt_iff b a).mpr hl] at h₂
  linarith [lt_trichotomy a.toQ b.toQ, l₁, l₂]

theorem Dec.lt_trans {a b c : Dec} (h₁ : Dec.lt a b = true) (h₂ : Dec.lt b c = true) :
    Dec.lt a c = true :=
  (Dec.lt_iff a c).mpr (((Dec.lt_iff a b).mp h₁).trans ((Dec.lt_iff b c).mp h₂))

theorem Dec.eqv_lt_trans {a b c : Dec} (h₁ : Dec.eqv a b = true) (h₂ : Dec.lt b c = true) :
    Dec.lt a c = true := by
  rw [Dec.eqv_iff] at h₁
  rw [Dec.lt_iff] at h₂ ⊢
  exact h₁ ▸ h₂

theorem Dec.lt_eqv_trans {a b c : Dec} (h₁ : Dec.lt a b = true) (h₂ : Dec.eqv b c = true) :
    Dec.lt a c = true := by
  rw [Dec.eqv_iff] at h₂
  rw [Dec.lt_iff] at h₁ ⊢
  exact h₂ ▸ h₁

/-- Digits of a numeral to its natural value. -/
def digitsToNat (cs : List Char) : Nat := cs.foldl (fun a c => a * 10 + (c.toNat - 48)) 0

/-- Unsigned decimal literal `digits[.digits]` (also `.digits` and `digits.`),
as accepted for Slack timestamps; `none` when the characters are not such a literal. -/
def parseUnsignedDec (cs : List Char) : Option Dec :=
  let ip := cs.takeWhile Char.isDigit
  let rest := cs.drop ip.length
  match rest with
  | [] => if ip.isEmpty then none else some ⟨digitsToNat ip, 0⟩
  | '.' :: fp =>
    if fp.all Char.isDigit && !(ip.isEmpty && fp.isEmpty) then
      some ⟨digitsToNat ip * 10 ^ fp.length + digitsToNat fp, fp.length⟩
    else none
  | _ => none

/-- JS `Number(ts)` on the timestamp domain: whitespace-trimmed, empty string is `0`,
otherwise the whole string must be a signed decimal literal; `none` models `NaN`.
Exotic numeric forms (hex, exponent, `Infinity`) do not occur for timestamps and
are treated as unparseable. -/
def jsNumber (s : String) : Option Dec :=
  let cs := (s.data.dropWhile Char.isWhitespace).reverse.dropWhile Char.isWhitespace |>.reverse
  match cs with
  | [] => some ⟨0, 0⟩
  | '-' :: rest => (parseUnsignedDec rest).map (fun d => ⟨-d.num, d.exp⟩)
  | '+' :: rest => parseUnsignedDec rest
  | _ => parseUnsignedDec cs

/-- JS `parseFloat(ts)`: parses the longest numeric prefix after trimming;
`none` models `NaN` (no parsable prefix). -/
def jsParseFloat (s : String) : Option Dec :=
  let cs := s.data.dropWhile Char.isWhitespace
  let core := fun (l : List Char) =>
    let ip := l.takeWhile Char.isDigit
    let rest := l.drop ip.length
    let fp := match rest with
      | '.' :: r => r.takeWhile Char.isDigit
      | _ => []
    if ip.isEmpty && fp.isEmpty then none
    else some (⟨digitsToNat ip * 10 ^ fp.length + digitsToNat fp, fp.length⟩ : Dec)
  match cs with
  | '-' :: rest => (core rest).map (fun d => ⟨-d.num, d.exp⟩)
  | '+' :: rest => core rest
  | _ => core cs

/-- Embedding of `parseSlackTs` (store.ts lines 79–86): `Number(ts)` when that is a
number, else `parseFloat(ts)`, else `0`. -/
def parseSlackTs (ts : String) : Dec :=
  match jsNumber ts with
  | some n => n
  | none =>
    match jsParseFloat ts with
    | some f => f
    | none => ⟨0, 0⟩

/-- Lookup in a JS object used as a string-keyed record (first matching key). -/
def recGet {α : Type} (l : List (String × α)) (k : String) : Option α :=
  (l.find? (fun e => e.1 == k)).map (fun e => e.2)

/-- JS property assignment `obj[k] = v`: an existing key keeps its position and is
overwritten, a new key is appended in insertion order (also the semantics of
`Map.set`). -/
def recSet {α : Type} (l : List (String × α)) (k : String) (v : α) : List (String × α) :=
  if (l.find? (fun e => e.1 == k)).isSome then
    l.map (fun e => if e.1 == k then (e.1, v) else e)
  else l ++ [(k, v)]

theorem recGet_nil {α : Type} (k : String) : recGet ([] : List (String × α)) k = none := rfl

theorem recGet_cons_eq {α : Type} {a : String × α} {as : List (String × α)} {k : String}
    (h : (a.1 == k) = true) : recGet (a :: as) k = some a.2 := by
  unfold recGet
  simp [List.find?_cons, h]

theorem recGet_cons_ne {α : Type} {a : String × α} {as : List (String × α)} {k : String}
    (h : (a.1 == k) = false) : recGet (a :: as) k = recGet as k := by
  unfold recGet
  simp [List.find?_cons, h]

theorem recSet_cons_ne {α : Type} {a : String × α} {as : List (String × α)} {k : String}
    (v : α) (h : (a.1 == k) = false) : recSet (a :: as) k v = a :: recSet as k v := by
  unfold recSet
  simp only [List.find?_cons, h]
  by_cases hs : (as.find? (fun e => e.1 == k)).isSome
  · rw [if_pos hs, if_pos hs, List.map_cons]
    simp [h]
  · rw [if_neg hs, if_neg hs, List.cons_append]

theorem recSet_cons_eq {α : Type} {a : String × α} {as : List (String × α)} {k : String}
    (v : α) (h : (a.1 == k) = true) :
    recSet (a :: as) k v = (a.1, v) :: as.map (fun e => if e.1 == k then (e.1, v) else e) := by
  unfold recSet
  simp [List.find?_cons, h]
  exact fun hc => absurd (beq_iff_eq.mp h) hc

theorem recGet_mapUpd_ne {α : Type} (l : List (String × α)) (k k' : String) (v : α)
    (h : k ≠ k') :
    recGet (l.map (fun e => if e.1 == k then (e.1, v) else e)) k' = recGet l k' := by
  induction l with
  | nil => rfl
  | cons a as ih =>
    rw [List.map_cons]
    by_cases ha : (a.1 == k) = true
    · rw [if_pos ha]
      have hk : a.1 = k := by simpa using ha
      have hne : ((a.1, v).1 == k') = false := by simp [hk, h]
      rw [recGet_cons_ne hne, recGet_cons_ne (by simpa using hne), ih]
    · rw [if_neg (by simpa using ha)]
      by_cases ha' : (a.1 == k') = true
      · rw [recGet_cons_eq ha', recGet_cons_eq ha']
      · rw [recGet_cons_ne (by simpa using ha'), recGet_cons_ne (by simpa using ha'), ih]

theorem recGet_append_one_ne {α : Type} (l : List (String × α)) (k k' : String) (v : α)
    (h : k ≠ k') : recGet (l ++ [(k, v)]) k' = recGet l k' := by
  induction l with
  | nil =>
    rw [List.nil_append, recGet_cons_ne (beq_eq_false_iff_ne.mpr h)]
  | cons a as ih =>
    rw [List.cons_append]
    by_cases ha : (a.1 == k') = true
    · rw [recGet_cons_eq ha, recGet_cons_eq ha]
    · rw [recGet_cons_ne (by simpa using ha), recGet_cons_ne (by simpa using ha), ih]

theorem recGet_recSet_self {α : Type} (l : List (String × α)) (k : String) (v : α) :
    recGet (recSet l k v) k = some v := by
  induction l with
  | nil => simp [recSet, recGet, List.find?]
  | cons a as ih =>
    by_cases ha : (a.1 == k) = true
    · rw [recSet_cons_eq v ha, recGet_cons_eq (show ((a.1, v).1 == k) = true from ha)]
    · rw [recSet_cons_ne v (by simpa using ha), recGet_cons_ne (by simpa using ha)]
      exact ih

theorem recGet_recSet_ne {α : Type} (l : List (String × α)) (k k' : String) (v : α)
    (h : k ≠ k') : recGet (recSet l k v) k' = recGet l k' := by
  unfold recSet
  by_cases hf : (l.find? (fun e => e.1 == k)).isSome
  · rw [if_pos hf]
    exact recGet_mapUpd_ne l k k' v h
  · rw [if_neg hf]
    exact recGet_append_one_ne l k k' v h

theorem recGet_isSome_iff_mem {α : Type} (l : List (String × α)) (k : String) :
    (recGet l k).isSome = true ↔ k ∈ l.map (fun e => e.1) := by
  induction l with
  | nil => simp [recGet]
  | cons a as ih =>
    rw [List.map_cons, List.mem_cons]
    by_cases ha : (a.1 == k) = true
    · rw [recGet_cons_eq ha]
      simp only [Option.isSome_some, true_iff]
      exact Or.inl (beq_iff_eq.mp ha).symm
    · rw [recGet_cons_ne (by simpa using ha), ih]
      constructor
      · exact Or.inr
      · rintro (hh | hh)
        · exact absurd hh.symm (by simpa using ha)
        · exact hh

theorem recSet_keys {α : Type} (l : List (String × α)) (k : String) (v : α) :
    (recSet l k v).map (fun e => e.1) =
      if (recGet l k).isSome then l.map (fun e => e.1)
      else l.map (fun e => e.1) ++ [k] := by
  have hiso : (recGet l k).isSome = (l.find? (fun e => e.1 == k)).isSome := by
    unfold recGet
    cases l.find? (fun e => e.1 == k) <;> rfl
  unfold recSet
  by_cases hf : (l.find? (fun e => e.1 == k)).isSome
  · rw [if_pos hf, if_pos (by rw [hiso]; exact hf), List.map_map]
    refine List.map_congr_left (fun e _ => ?_)
    show (if (e.1 == k) = true then (e.1, v) else e).1 = e.1
    split <;> rfl
  · rw [if_neg hf, if_neg (by rw [hiso]; exact hf), List.map_append]
    rfl

theorem mem_iff_recGet_of_nodup {α : Type} {l : List (String × α)} {k : String} {v : α}
    (hnd : (l.map (fun e => e.1)).Nodup) : (k, v) ∈ l ↔ recGet l k = some v := by
  induction l with
  | nil => simp [recGet]
  | cons a as ih =>
    rw [List.map_cons, List.nodup_cons] at hnd
    rw [List.mem_cons]
    by_cases ha : (a.1 == k) = true
    · have hk : a.1 = k := by simpa using ha
      rw [recGet_cons_eq ha, Option.some_inj]
      constructor
      · rintro (hh | hh)
        · rw [← hh]
        · exact absurd (hk ▸ List.mem_map.mpr ⟨(k, v), hh, rfl⟩) hnd.1
      · intro hh
        left
        obtain ⟨a1, a2⟩ := a
        simp only at hk hh
        rw [hk, hh]
    · rw [recGet_cons_ne (by simpa using ha), ← ih hnd.2]
      constructor
      · rintro (hh | hh)
        · exact absurd (congrArg (fun e => e.1) hh).symm (by simpa using ha)
        · exact hh
      · exact Or.inr

/-- The `Game` union type from rules.ts. -/
inductive Game
  | boom
  | hadeda
  | wednesday
deriving DecidableEq

/-- A total `Record<Game, α>`; `ensureDay` always materialises all three games, so the
per-game records reached by the store operations are total. -/
structure PerGame (α : Type) where
  boom : α
  hadeda : α
  wednesday : α
deriving DecidableEq

def PerGame.get {α : Type} (p : PerGame α) : Game → α
  | Game.boom => p.boom
  | Game.hadeda => p.hadeda
  | Game.wednesday => p.wednesday

def PerGame.set {α : Type} (p : PerGame α) (g : Game) (v : α) : PerGame α :=
  match g with
  | Game.boom => { p with boom := v }
  | Game.hadeda => { p with hadeda := v }
  | Game.wednesday => { p with wednesday := v }

theorem PerGame.get_set_self {α : Type} (p : PerGame α) (g : Game) (v : α) :
    (p.set g v).get g = v := by
  cases g <;> rfl

theorem PerGame.get_set_ne {α : Type} (p : PerGame α) (g g' : Game) (v : α) (h : g ≠ g') :
    (p.set g v).get g' = p.get g' := by
  cases g <;> cases g' <;> first | rfl | exact absurd rfl h

/-- A raw captured message (`Winner` in store.ts). -/
structure Winner where
  user_id : String
  channel_id : String
  message_ts : String
  created_at : String
deriving DecidableEq

/-- A persisted weekly crown record. `crowned_at` is kept as epoch milliseconds: the
source stores `DateTime.fromMillis(tsMs).toISO()` and always reads it back with
`DateTime.fromISO(...).toMillis()` (or compares the resulting `DateTime`s), and that
round trip is the identity on the relevant range. -/
structure CrownRec where
  winners : List String
  points : Int
  crowned_at : Nat
deriving DecidableEq

/-- The `StoreData` document (store.ts lines 8–24). Date-keyed records are
association lists in JS object key order; `weekly_adjustments` keeps its optionality. -/
structure StoreData where
  placements : List (String × PerGame (Option (List String)))
  counts : List (String × PerGame Nat)
  daily_announced : List (String × String)
  weekly_crowned : List (String × String)
  weekly_kings : List (String × CrownRec)
  weekly_adjustments : Option (List (String × List (String × Int)))
  messages : List (String × PerGame (List Winner))
deriving DecidableEq

/-- `initialData()` (store.ts lines 26–33): `weekly_adjustments` is left unset. -/
def initialData : StoreData :=
  { placements := [], counts := [], daily_announced := [], weekly_crowned := [],
    weekly_kings := [], weekly_adjustments := none, messages := [] }

/-- `ensureDay` (store.ts lines 115–124). The per-game backfill of `messages[date]`
is subsumed by `PerGame` being total. -/
def ensureDay (s : StoreData) (date : String) : StoreData :=
  let s := if (recGet s.placements date).isSome then s
    else { s with placements := recSet s.placements date ⟨none, none, none⟩ }
  let s := if (recGet s.counts date).isSome then s
    else { s with counts := recSet s.counts date ⟨0, 0, 0⟩ }
  if (recGet s.messages date).isSome then s
  else { s with messages := recSet s.messages date ⟨[], [], []⟩ }

/-- `getMessages` (store.ts lines 126–129): missing date (or missing game array,
which the total `PerGame` cannot exhibit) reads as `[]`. -/
def getMessages (s : StoreData) (date : String) (g : Game) : List Winner :=
  match recGet s.messages date with
  | some per => per.get g
  | none => []

/-- The repeated "earlier event" test of the source (store.ts lines 139 and 230):
numerically earlier timestamp, or numerically tied (`===`) and lexicographically
smaller raw string. -/
def tsLt (a b : String) : Bool :=
  Dec.lt (parseSlackTs a) (parseSlackTs b) ||
    (Dec.eqv (parseSlackTs a) (parseSlackTs b) && strLt a b)

/-- One step of the `earliest` map construction in `computePodiumFromMessages`
(store.ts lines 135–142). Entries are `(user_id, message_ts)`; the cached `tsNum`
of the source is recomputed via `parseSlackTs`, of which it is a pure function. -/
def earliestUpd (acc : List (String × String)) (m : Winner) : List (String × String) :=
  match recGet acc m.user_id with
  | none => recSet acc m.user_id m.message_ts
  | some cur =>
    if tsLt m.message_ts cur then recSet acc m.user_id m.message_ts
    else acc

/-- The user → earliest-timestamp map of `computePodiumFromMessages`, in `Map`
insertion order. -/
def earliestMap (msgs : List Winner) : List (String × String) :=
  msgs.foldl earliestUpd []

/-- The sort comparator of `computePodiumFromMessages` (store.ts lines 144–149) as a
total `≤` test: numeric timestamp, then raw timestamp string, then user id. The
source's two-stage compare (numbers first, then strings) is exactly the lexicographic
test `tsLt`: when neither timestamp is `tsLt`-below the other, the numbers are tied
and the strings are equal, and only the user-id tie-break remains. -/
def entryLe (a b : String × String) : Bool :=
  if tsLt a.2 b.2 then true
  else if tsLt b.2 a.2 then false
  else !(strLt b.1 a.1)

/-- The comparator as the relation JS `Array.prototype.sort` sorts by; the sort
itself is modelled as a deterministic comparator-respecting sort (`insertionSort`),
which is the unique sorted arrangement since `entryLe` is antisymmetric here. -/
def entryRel (a b : String × String) : Prop := entryLe a b = true

instance : DecidableRel entryRel :=
  fun a b => show Decidable (entryLe a b = true) from inferInstance

/-- `computePodiumFromMessages` (store.ts lines 131–152). -/
def computePodiumFromMessages (s : StoreData) (date : String) (g : Game) : List String :=
  let msgs := getMessages s date g
  if msgs.isEmpty then []
  else ((List.insertionSort entryRel (earliestMap msgs)).map (fun e => e.1)).take 3

/-- The legacy arrival-ordered placement list for a date+game, `undefined` as `none`. -/
def legacyList (s : StoreData) (date : String) (g : Game) : Option (List String) :=
  (recGet s.placements date).bind (fun per => per.get g)

/-- `computePodium` (store.ts lines 154–162): timestamp-derived podium when any raw
message exists, else the legacy placements list truncated to 3. -/
def computePodium (s : StoreData) (date : String) (g : Game) : List String :=
  let msgs := getMessages s date g
  if !msgs.isEmpty then computePodiumFromMessages s date g
  else
    match legacyList s date g with
    | some arr => arr.take 3
    | none => []

/-- `incrementCount` (store.ts lines 164–170), without the durable write (it does not
change the in-memory data; the write is modelled in the fallible layer below). -/
def incrementCount (s : StoreData) (date : String) (g : Game) : StoreData × Nat :=
  let s := ensureDay s date
  let c := ((recGet s.counts date).getD ⟨0, 0, 0⟩).get g
  let s := { s with
    counts := recSet s.counts date (((recGet s.counts date).getD ⟨0, 0, 0⟩).set g (c + 1)) }
  (s, ((recGet s.counts date).getD ⟨0, 0, 0⟩).get g)

/-- `placementsCount` (store.ts lines 177–180): length of the computed podium
(after `ensureDay`, which does not affect it). -/
def placementsCount (s : StoreData) (date : String) (g : Game) : Nat :=
  (computePodium (ensureDay s date) date g).length

/-- The legacy (no-timestamp) branch of `addPlacement` (store.ts lines 194–203). -/
def addPlacementLegacy (s : StoreData) (date : String) (g : Game) (user : String) :
    StoreData × Nat :=
  let arr := (legacyList s date g).getD []
  if user ∈ arr then (s, 0)
  else if 3 ≤ arr.length then (s, 0)
  else
    let arr := arr ++ [user]
    let per := (recGet s.placements date).getD ⟨none, none, none⟩
    ({ s with placements := recSet s.placements date (per.set g (some arr)) }, arr.length)

/-- The `earliestTsForUser` scan of `addPlacement` (store.ts lines 222–234). -/
def earliestTsForUser (all : List Winner) (user : String) : Option String :=
  all.foldl (fun acc w =>
    if w.user_id ≠ user then acc
    else
      match acc with
      | none => some w.message_ts
      | some cur =>
        if tsLt w.message_ts cur then some w.message_ts
        else acc) none

/-- The position decision at the end of `addPlacement` (store.ts lines 236–245),
computed on the state reached after the (possible) insertion. -/
def addPlacementResult (s : StoreData) (date : String) (g : Game) (user ts : String) : Nat :=
  let all := getMessages s date g
  let earliest := earliestTsForUser all user
  let podium := computePodium s date g
  match podium.findIdx? (fun x => x == user) with
  | some idx => if earliest = some ts then idx + 1 else 0
  | none => 0

/-- State after storing a non-duplicate message (store.ts lines 213–219). -/
def insertMessage (s : StoreData) (date : String) (g : Game) (msg : Winner) : StoreData :=
  let arr := getMessages s date g
  { s with messages :=
      recSet s.messages date (((recGet s.messages date).getD ⟨[], [], []⟩).set g (arr ++ [msg])) }

/-- `addPlacement` (store.ts lines 190–246), without the durable write. `ts = ""` is
the falsy `!ts` check (the optional parameter left out is modelled by the empty
string); `nowIso` is the `DateTime.now().toISO()` stamp. Returns the new state and
the awarded position (0 when none). -/
def addPlacement (s : StoreData) (date : String) (g : Game)
    (user ts channel_id nowIso : String) : StoreData × Nat :=
  let s := ensureDay s date
  if ts = "" then addPlacementLegacy s date g user
  else
    let msg : Winner := ⟨user, channel_id, ts, nowIso⟩
    let arr := getMessages s date g
    let ex := arr.any (fun w => w.user_id == user && w.message_ts == ts)
    let s := if ex then s else insertMessage s date g msg
    (s, addPlacementResult s date g user ts)

/-- `getPlacements` (store.ts lines 248–251) as a query: the `ensureDay` it performs
never changes the computed podium, so only the returned list is modelled. -/
def getPlacements (s : StoreData) (date : String) (g : Game) : List String :=
  computePodium (ensureDay s date) date g

/-- `markDailyAnnounced` (store.ts lines 253–256), without the durable write. -/
def markDailyAnnounced (s : StoreData) (date : String) (nowIso : String) : StoreData :=
  { s with daily_announced := recSet s.daily_announced date nowIso }

/-- `hasDailyAnnounced` (store.ts lines 258–260): JS truthiness of the stored string. -/
def hasDailyAnnounced (s : StoreData) (date : String) : Bool :=
  !((recGet s.daily_announced date).getD "" == "")

/-- `hasCrowned` (store.ts lines 262–264). -/
def hasCrowned (s : StoreData) (weekKey : String) : Bool :=
  !((recGet s.weekly_crowned weekKey).getD "" == "")

/-- `markCrowned` (store.ts lines 266–269), without the durable write. -/
def markCrowned (s : StoreData) (weekKey : String) (nowIso : String) : StoreData :=
  { s with weekly_crowned := recSet s.weekly_crowned weekKey nowIso }

/-- The max-existing-crown-time scan of `setCrown` (store.ts lines 277–283); every
typed record has a valid `crowned_at`, so the `Number.isFinite` guard is subsumed. -/
def maxCrownMs (s : StoreData) : Nat :=
  s.weekly_kings.foldl (fun m e => if m < e.2.crowned_at then e.2.crowned_at else m) 0

/-- The monotonic stamp chosen by `setCrown` (store.ts lines 284–285): wall-clock
`nowMs`, bumped to `max + 1` when not strictly past every recorded crown. -/
def crownStamp (s : StoreData) (nowMs : Nat) : Nat :=
  if nowMs ≤ maxCrownMs s then maxCrownMs s + 1 else nowMs

/-- `setCrown` (store.ts lines 274–293), without the durable write; `nowMs` is
`Date.now()`. -/
def setCrown (s : StoreData) (weekKey : String) (winners : List String) (points : Int)
    (nowMs : Nat) : StoreData :=
  { s with weekly_kings :=
      recSet s.weekly_kings weekKey ⟨winners, points, crownStamp s nowMs⟩ }

/-- One comparison step of the `getLatestCrown` scan (store.ts lines 300–311). -/
def latestStep (latest : Option (String × CrownRec)) (e : String × CrownRec) :
    Option (String × CrownRec) :=
  match latest with
  | none => some e
  | some l => if l.2.crowned_at < e.2.crowned_at then some e else latest

/-- `getLatestCrown` (store.ts lines 296–313): linear scan keeping the record with
the strictly greatest `crowned_at` (first seen wins ties). -/
def getLatestCrown (s : StoreData) : Option (String × CrownRec) :=
  s.weekly_kings.foldl latestStep none

/-- A civil calendar date, the value behind a `YYYY-MM-DD` ISO date string. -/
structure Date where
  year : Int
  month : Nat
  day : Nat
deriving DecidableEq

def isLeap (y : Int) : Bool := y % 4 == 0 && (y % 100 != 0 || y % 400 == 0)

def daysInMonth (y : Int) (m : Nat) : Nat :=
  if m == 2 then (if isLeap y then 29 else 28)
  else if m == 4 || m == 6 || m == 9 || m == 11 then 30
  else 31

/-- Strict `YYYY-MM-DD` parse with range validation; `none` models an invalid
luxon `DateTime`. -/
def parseISO (s : String) : Option Date :=
  match s.data with
  | [y1, y2, y3, y4, '-', m1, m2, '-', d1, d2] =>
    if [y1, y2, y3, y4, m1, m2, d1, d2].all Char.isDigit then
      let y : Int := (digitsToNat [y1, y2, y3, y4] : Int)
      let m := digitsToNat [m1, m2]
      let d := digitsToNat [d1, d2]
      if 1 ≤ m && m ≤ 12 && 1 ≤ d && d ≤ daysInMonth y m then some ⟨y, m, d⟩ else none
    else none
  | _ => none

/-- Days since 1970-01-01 of a civil date (standard civil-from-days algorithm,
with floor division). -/
def dayNumber (dt : Date) : Int :=
  let y : Int := if dt.month ≤ 2 then dt.year - 1 else dt.year
  let era : Int := Int.fdiv y 400
  let yoe : Int := y - era * 400
  let mp : Int := ((dt.month : Int) + 9) % 12
  let doy : Int := (153 * mp + 2) / 5 + (dt.day : Int) - 1
  let doe : Int := yoe * 365 + yoe / 4 - yoe / 100 + doy
  era * 146097 + doe - 719468

/-- Civil date of a day number (inverse of `dayNumber`). -/
def dateOfDayNumber (z0 : Int) : Date :=
  let z := z0 + 719468
  let era := Int.fdiv z 146097
  let doe := z - era * 146097
  let yoe := (doe - doe / 1460 + doe / 36524 - doe / 146096) / 365
  let y := yoe + era * 400
  let doy := doe - (365 * yoe + yoe / 4 - yoe / 100)
  let mp := (5 * doy + 2) / 153
  let d := doy - (153 * mp + 2) / 5 + 1
  let m := if mp < 10 then mp + 3 else mp - 9
  { year := if m ≤ 2 then y + 1 else y, month := m.toNat, day := d.toNat }

def pad2 (n : Nat) : String := if n < 10 then "0" ++ toString n else toString n

def toISODate (dt : Date) : String :=
  toString dt.year ++ "-" ++ pad2 dt.month ++ "-" ++ pad2 dt.day

/-- The date iteration of `weeklyTotals` (store.ts lines 324–327): every calendar
day from `startDate` to `endDate` inclusive; an invalid bound yields no iterations
(luxon comparisons against an invalid `DateTime` are false). -/
def dateRange (startDate endDate : String) : List String :=
  match parseISO startDate, parseISO endDate with
  | some ds, some de =>
    let a := dayNumber ds
    let b := dayNumber de
    (List.range (b - a + 1).toNat).map (fun i => toISODate (dateOfDayNumber (a + i)))
  | _, _ => []

/-- ISO weeks in an ISO week-numbering year. -/
def isoWeeksInYear (y : Int) : Nat :=
  let p : Int → Int := fun yy => (yy + Int.fdiv yy 4 - Int.fdiv yy 100 + Int.fdiv yy 400) % 7
  if p y == 4 || p (y - 1) == 3 then 53 else 52

/-- ISO weekday, 1 = Monday .. 7 = Sunday (1970-01-01 was a Thursday). -/
def isoWeekday (dt : Date) : Nat := ((dayNumber dt + 3).emod 7).toNat + 1

/-- Day of year, 1-based. -/
def dayOfYear (dt : Date) : Nat := (dayNumber dt - dayNumber ⟨dt.year, 1, 1⟩).toNat + 1

/-- ISO week number (luxon `weekNumber`). -/
def weekNumber (dt : Date) : Nat :=
  let w : Int := Int.fdiv ((10 : Int) + (dayOfYear dt : Int) - (isoWeekday dt : Int)) 7
  if w < 1 then isoWeeksInYear (dt.year - 1)
  else if ((isoWeeksInYear dt.year : Int) < w) then 1
  else w.toNat

/-- `weekKeyForRange` (store.ts lines 39–44): the start date's ISO week number with
its plain calendar year (faithfully keeping the source's use of `year`, not the ISO
week-year). An invalid start date yields luxon `NaN` fields, rendered as in JS. -/
def weekKeyForRange (startDate endDate : String) : String :=
  match parseISO startDate with
  | some d => toString d.year ++ "-W" ++ pad2 (weekNumber d)
  | none => "NaN-WNaN"

/-- A weekly leaderboard row. -/
structure UserPoints where
  user_id : String
  points : Int
deriving DecidableEq

/-- The podium weights `[5, 3, 1]` of `weeklyTotals` (store.ts line 331). -/
def weights : List Int := [5, 3, 1]

/-- The per-podium accumulation of `weeklyTotals` (store.ts lines 332–335): each
podium position with a positive weight adds that weight to its user's total. The
`forEach` with `weights[idx] || 0` touches at most the first three entries, which is
exactly the `zip` with the three weights. -/
def addPodiumPoints (r : List (String × Int)) (podium : List String) : List (String × Int) :=
  (podium.zip weights).foldl (fun r e =>
    if 0 < e.2 then recSet r e.1 ((recGet r e.1).getD 0 + e.2) else r) r

/-- The output comparator of `weeklyTotals` (store.ts line 340): points descending,
then user id ascending (`localeCompare` modelled as code-unit order). -/
def upLe (a b : UserPoints) : Bool :=
  if b.points < a.points then true
  else if a.points < b.points then false
  else !(strLt b.user_id a.user_id)

/-- The output comparator as a relation (see `entryRel`). -/
def upRel (a b : UserPoints) : Prop := upLe a b = true

instance : DecidableRel upRel :=
  fun a b => show Decidable (upLe a b = true) from inferInstance

/-- `weeklyTotals` (store.ts lines 315–341): seed the accumulator with the week's
baseline adjustments, add weighted podium points for every date+game in range, then
sort. -/
def weeklyTotals (s : StoreData) (startDate endDate : String) : List UserPoints :=
  let weekKey := weekKeyForRange startDate endDate
  let baselines := (recGet ((s.weekly_adjustments).getD []) weekKey).getD []
  let res := baselines.foldl (fun r e => recSet r e.1 e.2) []
  let res := (dateRange startDate endDate).foldl (fun r date =>
    [Game.boom, Game.hadeda, Game.wednesday].foldl (fun r g =>
      addPodiumPoints r (computePodium s date g)) r) res
  List.insertionSort upRel (res.map (fun e => UserPoints.mk e.1 e.2))

/-- The JSON document shape accepted on load (`Partial<StoreData & ...>`): each
top-level field is present-and-well-shaped (`some`) or missing/malformed (`none`,
rejected by the `isObject` guards of `normalizeData`), plus the legacy `wins` field. -/
structure Raw where
  placements : Option (List (String × PerGame (Option (List String))))
  counts : Option (List (String × PerGame Nat))
  daily_announced : Option (List (String × String))
  weekly_crowned : Option (List (String × String))
  weekly_kings : Option (List (String × CrownRec))
  weekly_adjustments : Option (List (String × List (String × Int)))
  messages : Option (List (String × PerGame (List Winner)))
  wins : Option (List (String × List (Game × List String)))
deriving DecidableEq

/-- `normalizeData` (store.ts lines 46–77): defaults for missing fields, then the
legacy `wins` migration into `placements`. -/
def normalizeData (raw : Raw) : StoreData :=
  let data : StoreData :=
    { placements := raw.placements.getD [],
      counts := raw.counts.getD [],
      daily_announced := raw.daily_announced.getD [],
      weekly_crowned := raw.weekly_crowned.getD [],
      weekly_kings := raw.weekly_kings.getD [],
      weekly_adjustments := raw.weekly_adjustments,
      messages := raw.messages.getD [] }
  match raw.wins with
  | none => data
  | some wins =>
    wins.foldl (fun d we =>
      let d := if (recGet d.placements we.1).isSome then d
        else { d with placements := recSet d.placements we.1 ⟨none, none, none⟩ }
      we.2.foldl (fun d ge =>
        let per := (recGet d.placements we.1).getD ⟨none, none, none⟩
        { d with placements := recSet d.placements we.1 (per.set ge.1 (some ge.2)) }) d) data

/-- Serialisation of the in-memory data (`JSON.stringify`): every field is written,
`weekly_adjustments` only when set; parsing this back yields exactly these fields. -/
def toRaw (s : StoreData) : Raw :=
  { placements := some s.placements, counts := some s.counts,
    daily_announced := some s.daily_announced, weekly_crowned := some s.weekly_crowned,
    weekly_kings := some s.weekly_kings, weekly_adjustments := s.weekly_adjustments,
    messages := some s.messages, wins := none }

/-- Contents of the canonical store file: either bytes that fail `JSON.parse`, or a
parsed document. -/
inductive FileContent
  | corrupt
  | parsed (raw : Raw)
deriving DecidableEq

/-- A store with its durable file: `data` is `this.data`, `file` the canonical file
on disk (`none` when absent). -/
structure StoreFS where
  data : StoreData
  file : Option FileContent
deriving DecidableEq

/-- The `Store` constructor (store.ts lines 92–107) as a function of the initial
file state: a parse failure falls back to `initialData()` (and, notably, does not
rewrite the file); only the no-file branch flushes. -/
def storeInit : Option FileContent → StoreFS
  | none => { data := initialData, file := some (FileContent.parsed (toRaw initialData)) }
  | some FileContent.corrupt => { data := initialData, file := some FileContent.corrupt }
  | some (FileContent.parsed raw) => { data := normalizeData raw, file := some (FileContent.parsed raw) }

/-- `flush` (store.ts lines 109–113) with an explicit failure switch: on success the
tmp-write-then-rename replaces the canonical file with the serialised data; on
failure (`writeFileSync`/`renameSync` throwing) the canonical file is untouched and
the exception propagates, carrying the store as it stands (the error payload). -/
def flushF (st : StoreFS) (fsOk : Bool) : Except StoreFS StoreFS :=
  if fsOk then Except.ok { st with file := some (FileContent.parsed (toRaw st.data)) }
  else Except.error st

/-- `incrementCount` with its durable write: the in-memory mutation happens first,
then `flush`; a flush failure propagates after the mutation. -/
def incrementCountF (st : StoreFS) (date : String) (g : Game) (fsOk : Bool) :
    Except StoreFS (StoreFS × Nat) :=
  let r := incrementCount st.data date g
  match flushF { st with data := r.1 } fsOk with
  | Except.error e => Except.error e
  | Except.ok st2 => Except.ok (st2, r.2)

/-- `setCrown` with its durable write. -/
def setCrownF (st : StoreFS) (weekKey : String) (winners : List String) (points : Int)
    (nowMs : Nat) (fsOk : Bool) : Except StoreFS StoreFS :=
  flushF { st with data := setCrown st.data weekKey winners points nowMs } fsOk

/-- `markCrowned` with its durable write. -/
def markCrownedF (st : StoreFS) (weekKey : String) (nowIso : String) (fsOk : Bool) :
    Except StoreFS StoreFS :=
  flushF { st with data := markCrowned st.data weekKey nowIso } fsOk

/-- `markDailyAnnounced` with its durable write. -/
def markDailyAnnouncedF (st : StoreFS) (date : String) (nowIso : String) (fsOk : Bool) :
    Except StoreFS StoreFS :=
  flushF { st with data := markDailyAnnounced st.data date nowIso } fsOk

/-- `addPlacement` with its durable writes, at the positions the source calls
`flush()`: after a legacy append (line 201) and after storing a new message
(line 218); a duplicate stores nothing and never flushes. -/
def addPlacementF (st : StoreFS) (date : String) (g : Game)
    (user ts channel_id nowIso : String) (fsOk : Bool) : Except StoreFS (StoreFS × Nat) :=
  let s0 := ensureDay st.data date
  if ts = "" then
    let arr := (legacyList s0 date g).getD []
    if user ∈ arr then Except.ok ({ st with data := s0 }, 0)
    else if 3 ≤ arr.length then Except.ok ({ st with data := s0 }, 0)
    else
      let r := addPlacementLegacy s0 date g user
      match flushF { st with data := r.1 } fsOk with
      | Except.error e => Except.error e
      | Except.ok st2 => Except.ok (st2, r.2)
  else
    let msg : Winner := ⟨user, channel_id, ts, nowIso⟩
    let arr := getMessages s0 date g
    let ex := arr.any (fun w => w.user_id == user && w.message_ts == ts)
    if ex then Except.ok ({ st with data := s0 }, addPlacementResult s0 date g user ts)
    else
      let s1 := insertMessage s0 date g msg
      match flushF { st with data := s1 } fsOk with
      | Except.error e => Except.error e
      | Except.ok st2 => Except.ok (st2, addPlacementResult s1 date g user ts)

/-- Heap model for `getCounts` aliasing: count objects live in a heap of cells
addressed by allocation index; `countsRef` is `this.data.counts` holding, per date,
a reference to its cell; `file` is the persisted (by-value) counts document. -/
structure StoreH where
  heap : List (PerGame Nat)
  countsRef : List (String × Nat)
  file : List (String × PerGame Nat)
deriving DecidableEq

/-- The counts part of `ensureDay` in the heap model: a missing date allocates a
fresh zeroed cell (`{ boom: 0, hadeda: 0, wednesday: 0 }`). -/
def ensureDayH (st : StoreH) (date : String) : StoreH :=
  match recGet st.countsRef date with
  | some _ => st
  | none =>
    { st with
      heap := st.heap ++ [⟨0, 0, 0⟩]
      countsRef := recSet st.countsRef date st.heap.length }

/-- `getCounts` (store.ts lines 172–175) in the heap model: `ensureDay`, then return
`{ ...this.data.counts[date] }` — a freshly allocated copy of the date's cell. The
returned value is the reference to the new cell. No flush happens. -/
def getCountsH (st : StoreH) (date : String) : StoreH × Nat :=
  let st := ensureDayH st date
  let src := (recGet st.countsRef date).getD 0
  let v := (st.heap.getD src ⟨0, 0, 0⟩)
  ({ st with heap := st.heap ++ [v] }, st.heap.length)

/-- A caller mutating the object behind reference `r` (any JS write to the returned
map, e.g. `counts[g] = n`, ends in some new cell value `v`). -/
def heapWrite (st : StoreH) (r : Nat) (v : PerGame Nat) : StoreH :=
  { st with heap := st.heap.set r v }

/-- The store's own view of a date's counts: the cell its `countsRef` points to. -/
def readCounts (st : StoreH) (date : String) : Option (PerGame Nat) :=
  (recGet st.countsRef date).bind (fun r => st.heap[r]?)

theorem mem_recSet {α : Type} (l : List (String × α)) (k : String) (v : α) :
    ∀ e ∈ recSet l k v, e = (k, v) ∨ e ∈ l := by
  intro e he
  unfold recSet at he
  split at he
  · obtain ⟨a, ha, hae⟩ := List.mem_map.mp he
    by_cases hk : (a.1 == k) = true
    · left
      rw [if_pos hk] at hae
      rw [← hae, beq_iff_eq.mp hk]
    · right
      rw [if_neg hk] at hae
      rw [← hae]
      exact ha
  · rcases List.mem_append.mp he with h | h
    · exact Or.inr h
    · left
      simpa using h

theorem recGet_eq_some_mem {α : Type} (l : List (String × α)) (k : String) (v : α)
    (h : recGet l k = some v) : ∃ e ∈ l, e.1 = k ∧ e.2 = v := by
  unfold recGet at h
  cases hf : l.find? (fun e => e.1 == k) with
  | none => rw [hf] at h; cases h
  | some e =>
    rw [hf] at h
    have hp := List.find?_some hf
    refine ⟨e, List.mem_of_find?_eq_some hf, ?_, ?_⟩
    · exact beq_iff_eq.mp hp
    · simpa using h

theorem recSet_self_mem {α : Type} (l : List (String × α)) (k : String) (v : α) :
    (k, v) ∈ recSet l k v := by
  obtain ⟨e, hmem, hk, hv⟩ := recGet_eq_some_mem (recSet l k v) k v (recGet_recSet_self l k v)
  have : e = (k, v) := by
    obtain ⟨e1, e2⟩ := e
    simp only at hk hv
    rw [hk, hv]
  rwa [this] at hmem

theorem maxCrownMs_aux_ge_init (l : List (String × CrownRec)) (init : Nat) :
    init ≤ l.foldl (fun m e => if m < e.2.crowned_at then e.2.crowned_at else m) init := by
  induction l generalizing init with
  | nil => simp
  | cons a as ih =>
    rw [List.foldl_cons]
    exact le_trans (by split <;> omega) (ih _)

theorem maxCrownMs_aux_ge_mem (l : List (String × CrownRec)) (init : Nat) :
    ∀ e ∈ l, e.2.crowned_at ≤
      l.foldl (fun m e => if m < e.2.crowned_at then e.2.crowned_at else m) init := by
  induction l generalizing init with
  | nil => simp
  | cons a as ih =>
    intro e he
    rw [List.foldl_cons]
    rcases List.mem_cons.mp he with h | h
    · subst h
      exact le_trans (by split <;> omega) (maxCrownMs_aux_ge_init as _)
    · exact ih _ e h

/-- Every crown already on record is at or below the scanned maximum, hence strictly
below the stamp `setCrown` will use. -/
theorem crownStamp_gt (s : StoreData) (nowMs : Nat) :
    ∀ e ∈ s.weekly_kings, e.2.crowned_at < crownStamp s nowMs := by
  intro e he
  have h1 : e.2.crowned_at ≤ maxCrownMs s := maxCrownMs_aux_ge_mem _ 0 e he
  unfold crownStamp
  split <;> omega

theorem latestFold_dominated (l : List (String × CrownRec)) (t : String × CrownRec)
    (h : ∀ e ∈ l, e = t ∨ e.2.crowned_at < t.2.crowned_at) :
    l.foldl latestStep (some t) = some t := by
  induction l with
  | nil => rfl
  | cons a as ih =>
    rw [List.foldl_cons]
    have hstep : latestStep (some t) a = some t := by
      show (if t.2.crowned_at < a.2.crowned_at then some a else some t) = some t
      rcases h a (List.mem_cons_self a as) with ha | ha
      · subst ha
        simp
      · rw [if_neg (by omega)]
    rw [hstep]
    exact ih (fun e he => h e (List.mem_cons_of_mem a he))

theorem latestFold_reaches (l : List (String × CrownRec)) (t : String × CrownRec)
    (acc : Option (String × CrownRec))
    (h : ∀ e ∈ l, e = t ∨ e.2.crowned_at < t.2.crowned_at) (ht : t ∈ l)
    (hacc : acc = none ∨ ∃ a, acc = some a ∧ a.2.crowned_at < t.2.crowned_at) :
    l.foldl latestStep acc = some t := by
  induction l generalizing acc with
  | nil => cases ht
  | cons a as ih =>
    rw [List.foldl_cons]
    by_cases hat : a = t
    · subst hat
      have hstep : latestStep acc a = some a := by
        rcases hacc with h0 | ⟨b, hb, hlt⟩
        · rw [h0]; rfl
        · rw [hb]
          show (if b.2.crowned_at < a.2.crowned_at then some a else some b) = some a
          rw [if_pos hlt]
      rw [hstep]
      exact latestFold_dominated as a (fun e he => h e (List.mem_cons_of_mem a he))
    · have hta : t ∈ as := by
        rcases List.mem_cons.mp ht with hh | hh
        · exact absurd hh.symm hat
        · exact hh
      have hlt : a.2.crowned_at < t.2.crowned_at :=
        (h a (List.mem_cons_self a as)).resolve_left hat
      refine ih (latestStep acc a) (fun e he => h e (List.mem_cons_of_mem a he)) hta ?_
      right
      rcases hacc with h0 | ⟨b, hb, hblt⟩
      · exact ⟨a, by rw [h0]; rfl, hlt⟩
      · rw [hb]
        show ∃ c, (if b.2.crowned_at < a.2.crowned_at then some a else some b) = some c ∧
          c.2.crowned_at < t.2.crowned_at
        split
        · exact ⟨a, rfl, hlt⟩
        · exact ⟨b, rfl, hblt⟩

/-- C4 (confirmed). Crown monotonicity and latest-crown correctness: from any store
state (so in particular along every sequence of `setCrown` calls, whatever the week
keys and even with a stalled wall clock `nowMs`), the stamp chosen for a new crown is
strictly greater than every `crowned_at` already on record, and immediately after the
call `getLatestCrown` returns exactly the record just set — the crown with the
greatest `crowned_at` is the most recently set one. -/
theorem setCrown_monotonic_latest (s : StoreData) (weekKey : String) (winners : List String)
    (points : Int) (nowMs : Nat) :
    (∀ e ∈ s.weekly_kings, e.2.crowned_at < crownStamp s nowMs) ∧
    getLatestCrown (setCrown s weekKey winners points nowMs)
      = some (weekKey, ⟨winners, points, crownStamp s nowMs⟩) := by
  refine ⟨crownStamp_gt s nowMs, ?_⟩
  unfold getLatestCrown setCrown
  apply latestFold_reaches
  · intro e he
    rcases mem_recSet _ _ _ e he with hh | hh
    · exact Or.inl hh
    · exact Or.inr (crownStamp_gt s nowMs e hh)
  · exact recSet_self_mem _ _ _
  · exact Or.inl rfl

/-- C9 (confirmed). `setCrown` is unguarded at the `Store` interface: called for a
week that already has a crown record, it replaces that week's winners and points and
stamps a strictly larger `crowned_at`; nothing in `setCrown` consults
`hasCrowned`/`markCrowned`, so at-most-once crowning is the caller's duty. -/
theorem setCrown_unguarded_replaces (s : StoreData) (weekKey : String)
    (winners : List String) (points : Int) (nowMs : Nat) (old : CrownRec)
    (h : recGet s.weekly_kings weekKey = some old) :
    recGet (setCrown s weekKey winners points nowMs).weekly_kings weekKey
        = some ⟨winners, points, crownStamp s nowMs⟩ ∧
    old.crowned_at < crownStamp s nowMs := by
  constructor
  · unfold setCrown
    exact recGet_recSet_self _ _ _
  · obtain ⟨e, hmem, _, hev⟩ := recGet_eq_some_mem _ _ _ h
    have := crownStamp_gt s nowMs e hmem
    rwa [hev] at this

/-- A store that already has a crown for week 2025-W10. -/
def crownedStore : StoreData :=
  { initialData with weekly_kings := [("2025-W10", ⟨["U1"], 12, 1000⟩)] }

/-- Witness for C9: overwriting the existing 2025-W10 crown replaces winners and
points and bumps `crowned_at` past the old 1000 stamp even though the clock reads
500. -/
theorem setCrown_unguarded_replaces_witness :
    recGet (setCrown crownedStore "2025-W10" ["U2"] 9 500).weekly_kings "2025-W10"
        = some ⟨["U2"], 9, crownStamp crownedStore 500⟩ ∧
    (1000 : Nat) < crownStamp crownedStore 500 :=
  setCrown_unguarded_replaces crownedStore "2025-W10" ["U2"] 9 500 ⟨["U1"], 12, 1000⟩
    (by decide)

/-- Counterexample for C8 as stated: constructing the store over a corrupt file does
NOT immediately re-persist a clean file — the catch branch of the constructor sets
`this.data = initialData()` without calling `flush()`, so the corrupt bytes stay on
disk. -/
theorem storeInit_corrupt_not_repersisted :
    (storeInit (some FileContent.corrupt)).file
      ≠ some (FileContent.parsed (toRaw initialData)) := by
  decide

/-- C8 (corrected). On a corrupt persisted file the constructor falls back to the
empty initial state (not a fatal error), but leaves the file as it was: the clean
state reaches disk only at the next successful flush of a mutating call. Only the
no-file branch writes immediately. -/
theorem storeInit_corrupt_falls_back :
    storeInit (some FileContent.corrupt)
        = { data := initialData, file := some FileContent.corrupt } ∧
    storeInit none = { data := initialData, file := some (FileContent.parsed (toRaw initialData)) } :=
  ⟨rfl, rfl⟩

/-- Counterexample for C6 as stated: when the durable write of `incrementCount`
fails, the in-memory state is NOT the same as before the call — the count was
already incremented before `flush()` threw, and no rollback happens. -/
theorem incrementCount_failure_mutates_memory :
    incrementCountF { data := initialData, file := some (FileContent.parsed (toRaw initialData)) }
        "2025-03-03" Game.boom false
      = Except.error { data := (incrementCount initialData "2025-03-03" Game.boom).1,
                       file := some (FileContent.parsed (toRaw initialData)) } ∧
    (incrementCount initialData "2025-03-03" Game.boom).1 ≠ initialData := by
  exact ⟨rfl, by decide⟩

/-- C6 (corrected). For every mutating operation, a failing durable write propagates
to the caller as a hard error (nothing is swallowed) and the canonical file is
untouched (write-temp-then-rename cannot tear it) — but the in-memory state has
already been mutated when the failure propagates: the error carries exactly the
post-mutation data, with no rollback. -/
theorem mutators_flush_failure (st : StoreFS) (date wk : String) (g : Game)
    (user ts channel_id nowIso : String) (winners : List String) (points : Int)
    (nowMs : Nat) (hts : ts ≠ "")
    (hnew : ((getMessages (ensureDay st.data date) date g).any
      (fun w => w.user_id == user && w.message_ts == ts)) = false) :
    incrementCountF st date g false
        = Except.error { data := (incrementCount st.data date g).1, file := st.file } ∧
    setCrownF st wk winners points nowMs false
        = Except.error { data := setCrown st.data wk winners points nowMs, file := st.file } ∧
    markCrownedF st wk nowIso false
        = Except.error { data := markCrowned st.data wk nowIso, file := st.file } ∧
    markDailyAnnouncedF st date nowIso false
        = Except.error { data := markDailyAnnounced st.data date nowIso, file := st.file } ∧
    addPlacementF st date g user ts channel_id nowIso false
        = Except.error { data := (addPlacement st.data date g user ts channel_id nowIso).1,
                         file := st.file } := by
  refine ⟨rfl, rfl, rfl, rfl, ?_⟩
  unfold addPlacementF addPlacement
  rw [if_neg hts, if_neg hts]
  simp only [hnew, Bool.false_eq_true, if_false, flushF, Bool.false_eq_true, if_false]

/-- Witness for C6: a fresh store, a first-ever event, a failing disk. -/
theorem mutators_flush_failure_witness :
    incrementCountF { data := initialData, file := none } "2025-03-04" Game.hadeda false
        = Except.error { data := (incrementCount initialData "2025-03-04" Game.hadeda).1,
                         file := none } ∧
    setCrownF { data := initialData, file := none } "2025-W11" ["U1"] 5 77 false
        = Except.error { data := setCrown initialData "2025-W11" ["U1"] 5 77, file := none } ∧
    markCrownedF { data := initialData, file := none } "2025-W11" "iso" false
        = Except.error { data := markCrowned initialData "2025-W11" "iso", file := none } ∧
    markDailyAnnouncedF { data := initialData, file := none } "2025-03-04" "iso" false
        = Except.error { data := markDailyAnnounced initialData "2025-03-04" "iso",
                         file := none } ∧
    addPlacementF { data := initialData, file := none } "2025-03-04" Game.hadeda
        "U1" "9.5" "C" "iso" false
        = Except.error { data :=
                           (addPlacement initialData "2025-03-04" Game.hadeda "U1" "9.5" "C" "iso").1,
                         file := none } :=
  mutators_flush_failure { data := initialData, file := none } "2025-03-04" "2025-W11"
    Game.hadeda "U1" "9.5" "C" "iso" ["U1"] 5 77 (by decide) (by decide)

/-- C10 (confirmed). `getCounts` returns a defensive copy: the spread
`{ ...this.data.counts[date] }` allocates a fresh cell holding the date's counts, so
any caller mutation of the returned map leaves both the store's own cell and the
persisted counts unchanged. -/
theorem getCounts_defensive_copy (st : StoreH) (date : String) (v' : PerGame Nat)
    (hwf : ∀ e ∈ st.countsRef, e.2 < st.heap.length) :
    readCounts (heapWrite (getCountsH st date).1 (getCountsH st date).2 v') date
        = readCounts (getCountsH st date).1 date ∧
    (heapWrite (getCountsH st date).1 (getCountsH st date).2 v').file = st.file ∧
    (getCountsH st date).1.heap[(getCountsH st date).2]?
        = readCounts (getCountsH st date).1 date := by
  obtain ⟨r, hr, hrlt, hfile⟩ :
      ∃ r, recGet (ensureDayH st date).countsRef date = some r ∧
        r < (ensureDayH st date).heap.length ∧ (ensureDayH st date).file = st.file := by
    unfold ensureDayH
    cases hd : recGet st.countsRef date with
    | some r0 =>
      obtain ⟨e, hmem, _, hev⟩ := recGet_eq_some_mem _ _ _ hd
      exact ⟨r0, hd, by rw [← hev]; exact hwf e hmem, rfl⟩
    | none =>
      refine ⟨st.heap.length, recGet_recSet_self _ _ _, ?_, rfl⟩
      simp
  have hgc : getCountsH st date
      = ({ ensureDayH st date with
            heap := (ensureDayH st date).heap ++
              [(ensureDayH st date).heap.getD r ⟨0, 0, 0⟩] },
          (ensureDayH st date).heap.length) := by
    simp only [getCountsH, hr, Option.getD_some]
  set st1 := ensureDayH st date with hst1
  set v := st1.heap.getD r ⟨0, 0, 0⟩ with hv
  have happ : (st1.heap ++ [v])[r]? = some v := by
    rw [List.getElem?_append, if_pos hrlt, hv, List.getD_eq_getElem?_getD]
    cases hx : st1.heap[r]? with
    | none => exact absurd (List.getElem?_eq_none_iff.mp hx) (by omega)
    | some x => rfl
  have hread1 : readCounts (getCountsH st date).1 date = some v := by
    rw [hgc]
    unfold readCounts
    simp only [hr, Option.bind_some]
    exact happ
  refine ⟨?_, ?_, ?_⟩
  · rw [hread1, hgc]
    unfold heapWrite readCounts
    simp only [hr, Option.some_bind]
    rw [List.getElem?_set_ne (by omega)]
    exact happ
  · rw [hgc]
    unfold heapWrite
    exact hfile
  · rw [hread1, hgc]
    simp

/-- A tiny heap store with one date whose counts cell is allocated. -/
def sampleHeapStore : StoreH :=
  { heap := [⟨1, 2, 3⟩], countsRef := [("2025-03-03", 0)],
    file := [("2025-03-03", ⟨1, 2, 3⟩)] }

/-- Witness for C10 at a concrete store, date and caller mutation. -/
theorem getCounts_defensive_copy_witness :
    readCounts (heapWrite (getCountsH sampleHeapStore "2025-03-03").1
        (getCountsH sampleHeapStore "2025-03-03").2 ⟨9, 9, 9⟩) "2025-03-03"
      = readCounts (getCountsH sampleHeapStore "2025-03-03").1 "2025-03-03" ∧
    (heapWrite (getCountsH sampleHeapStore "2025-03-03").1
        (getCountsH sampleHeapStore "2025-03-03").2 ⟨9, 9, 9⟩).file = sampleHeapStore.file ∧
    (getCountsH sampleHeapStore "2025-03-03").1.heap[(getCountsH sampleHeapStore "2025-03-03").2]?
      = readCounts (getCountsH sampleHeapStore "2025-03-03").1 "2025-03-03" :=
  getCounts_defensive_copy sampleHeapStore "2025-03-03" ⟨9, 9, 9⟩ (by decide)

theorem ensureDay_fields (s : StoreData) (date : String) :
    (ensureDay s date).messages
        = (if (recGet s.messages date).isSome then s.messages
           else recSet s.messages date ⟨[], [], []⟩) ∧
    (ensureDay s date).placements
        = (if (recGet s.placements date).isSome then s.placements
           else recSet s.placements date ⟨none, none, none⟩) ∧
    (ensureDay s date).counts
        = (if (recGet s.counts date).isSome then s.counts
           else recSet s.counts date ⟨0, 0, 0⟩) ∧
    (ensureDay s date).daily_announced = s.daily_announced ∧
    (ensureDay s date).weekly_crowned = s.weekly_crowned ∧
    (ensureDay s date).weekly_kings = s.weekly_kings ∧
    (ensureDay s date).weekly_adjustments = s.weekly_adjustments := by
  by_cases h1 : (recGet s.placements date).isSome <;>
    by_cases h2 : (recGet s.counts date).isSome <;>
      by_cases h3 : (recGet s.messages date).isSome <;>
        simp [ensureDay, h1, h2, h3]

theorem ensureDay_ensured (s : StoreData) (date : String)
    (h1 : (recGet s.placements date).isSome) (h2 : (recGet s.counts date).isSome)
    (h3 : (recGet s.messages date).isSome) : ensureDay s date = s := by
  simp [ensureDay, h1, h2, h3]

theorem ensureDay_isSome (s : StoreData) (date : String) :
    (recGet (ensureDay s date).placements date).isSome = true ∧
    (recGet (ensureDay s date).counts date).isSome = true ∧
    (recGet (ensureDay s date).messages date).isSome = true := by
  obtain ⟨hm, hp, hc, _⟩ := ensureDay_fields s date
  refine ⟨?_, ?_, ?_⟩
  · rw [hp]
    split
    next h => exact h
    next => rw [recGet_recSet_self]; rfl
  · rw [hc]
    split
    next h => exact h
    next => rw [recGet_recSet_self]; rfl
  · rw [hm]
    split
    next h => exact h
    next => rw [recGet_recSet_self]; rfl

theorem getMessages_ensureDay (s : StoreData) (date : String) (g : Game) :
    getMessages (ensureDay s date) date g = getMessages s date g := by
  have h := (ensureDay_fields s date).1
  unfold getMessages
  rw [h]
  by_cases hm : (recGet s.messages date).isSome
  · rw [if_pos hm]
  · rw [if_neg hm, recGet_recSet_self]
    cases hr : recGet s.messages date with
    | some per => rw [hr] at hm; exact absurd rfl hm
    | none => cases g <;> rfl

theorem getMessages_insertMessage (s : StoreData) (date : String) (g : Game) (m : Winner) :
    getMessages (insertMessage s date g m) date g = getMessages s date g ++ [m] := by
  unfold insertMessage getMessages
  cases hr : recGet s.messages date with
  | some per =>
    rw [recGet_recSet_self]
    show (per.set g (per.get g ++ [m])).get g = per.get g ++ [m]
    rw [PerGame.get_set_self]
  | none =>
    rw [recGet_recSet_self]
    show ((⟨[], [], []⟩ : PerGame (List Winner)).set g ([] ++ [m])).get g = [] ++ [m]
    rw [PerGame.get_set_self]

theorem ensureDay_insertMessage_self (s : StoreData) (date : String) (g : Game) (m : Winner) :
    ensureDay (insertMessage (ensureDay s date) date g m) date
      = insertMessage (ensureDay s date) date g m := by
  apply ensureDay_ensured
  · exact (ensureDay_isSome s date).1
  · exact (ensureDay_isSome s date).2.1
  · show (recGet (recSet (ensureDay s date).messages date _) date).isSome = true
    rw [recGet_recSet_self]
    rfl

/-- C3 (corrected). Calling `addPlacement` twice with identical `(user, ts)` changes
the stored state only once — the second call stores nothing, flushes nothing, and
returns exactly the same pair (state and position) as the first call. In particular
the second call returns the first call's position again (1..3 when this timestamp is
the user's earliest and on the podium), not necessarily the 0 sentinel. -/
theorem addPlacement_duplicate_idempotent (s : StoreData) (date : String) (g : Game)
    (user ts channel_id n₁ n₂ : String) (hts : ts ≠ "") :
    addPlacement (addPlacement s date g user ts channel_id n₁).1 date g user ts channel_id n₂
      = addPlacement s date g user ts channel_id n₁ := by
  by_cases hex : ((getMessages (ensureDay s date) date g).any
      (fun w => w.user_id == user && w.message_ts == ts)) = true
  · have h1 : addPlacement s date g user ts channel_id n₁
        = (ensureDay s date, addPlacementResult (ensureDay s date) date g user ts) := by
      unfold addPlacement
      rw [if_neg hts]
      simp only [hex, if_true]
    have hens : ensureDay (ensureDay s date) date = ensureDay s date :=
      ensureDay_ensured _ _ (ensureDay_isSome s date).1 (ensureDay_isSome s date).2.1
        (ensureDay_isSome s date).2.2
    rw [h1]
    show addPlacement (ensureDay s date) date g user ts channel_id n₂ = _
    unfold addPlacement
    rw [if_neg hts, hens]
    simp only [hex, if_true]
  · have hexf : ((getMessages (ensureDay s date) date g).any
        (fun w => w.user_id == user && w.message_ts == ts)) = false :=
      Bool.not_eq_true _ ▸ eq_false_of_ne_true hex
    have h1 : addPlacement s date g user ts channel_id n₁
        = (insertMessage (ensureDay s date) date g ⟨user, channel_id, ts, n₁⟩,
           addPlacementResult (insertMessage (ensureDay s date) date g
             ⟨user, channel_id, ts, n₁⟩) date g user ts) := by
      unfold addPlacement
      rw [if_neg hts]
      simp only [hexf, Bool.false_eq_true, if_false]
    have hens := ensureDay_insertMessage_self s date g
      (⟨user, channel_id, ts, n₁⟩ : Winner)
    have hmem2 : ((getMessages (insertMessage (ensureDay s date) date g
        ⟨user, channel_id, ts, n₁⟩) date g).any
          (fun w => w.user_id == user && w.message_ts == ts)) = true := by
      rw [getMessages_insertMessage, List.any_append]
      simp
    rw [h1]
    show addPlacement (insertMessage (ensureDay s date) date g ⟨user, channel_id, ts, n₁⟩)
        date g user ts channel_id n₂ = _
    unfold addPlacement
    rw [if_neg hts, hens]
    simp only [hmem2, if_true]

/-- Counterexample for C3 as stated: an exact duplicate of a podium-earning event
makes the second call return the position 1 again, not the 0 sentinel. -/
theorem addPlacement_duplicate_returns_position :
    (addPlacement (addPlacement initialData "2025-03-03" Game.boom "U1" "5.0" "C" "t1").1
        "2025-03-03" Game.boom "U1" "5.0" "C" "t2").2 = 1 ∧ (1 : Nat) ≠ 0 := by
  constructor
  · decide
  · decide

/-- Witness for C3 at a concrete duplicate delivery. -/
theorem addPlacement_duplicate_idempotent_witness :
    addPlacement (addPlacement initialData "2025-03-03" Game.boom "U1" "5.0" "C" "t1").1
        "2025-03-03" Game.boom "U1" "5.0" "C" "t2"
      = addPlacement initialData "2025-03-03" Game.boom "U1" "5.0" "C" "t1" :=
  addPlacement_duplicate_idempotent initialData "2025-03-03" Game.boom "U1" "5.0" "C" "t1"
    "t2" (by decide)

theorem computePodium_length_le (s : StoreData) (date : String) (g : Game) :
    (computePodium s date g).length ≤ 3 := by
  simp only [computePodium, computePodiumFromMessages]
  cases hm : (getMessages s date g).isEmpty with
  | true =>
    simp only [hm]
    rw [if_neg (by simp)]
    cases legacyList s date g with
    | some arr => exact List.length_take_le 3 arr
    | none => simp
  | false =>
    simp only [hm, Bool.not_false, if_true]
    rw [if_neg (by simp)]
    exact List.length_take_le 3 _

theorem findIdx?_lt_length_aux {α : Type} (p : α → Bool) (l : List α) :
    ∀ i j, List.findIdx? p l i = some j → j < i + l.length := by
  induction l with
  | nil => intro i j h; cases h
  | cons a as ih =>
    intro i j h
    rw [List.findIdx?_cons] at h
    by_cases hp : p a = true
    · rw [if_pos hp] at h
      injection h with h
      simp [← h]
    · rw [if_neg hp] at h
      have := ih (i + 1) j h
      simp only [List.length_cons]
      omega

theorem addPlacementResult_le_three (s : StoreData) (date : String) (g : Game)
    (user ts : String) : addPlacementResult s date g user ts ≤ 3 := by
  simp only [addPlacementResult]
  cases hf : (computePodium s date g).findIdx? (fun x => x == user) with
  | none => exact Nat.zero_le 3
  | some idx =>
    have h1 := findIdx?_lt_length_aux (fun x => x == user) (computePodium s date g) 0 idx hf
    have h2 := computePodium_length_le s date g
    show (if earliestTsForUser (getMessages s date g) user = some ts then idx + 1 else 0) ≤ 3
    split <;> omega

/-- Counterexample for C7 as stated: an unparseable timestamp is NOT a no-op — the
event is recorded (state changes) and the call returns position 1, not the sentinel
0, because `parseSlackTs` falls back to the numeric value 0. -/
theorem addPlacement_malformed_not_noop :
    (addPlacement initialData "2025-03-03" Game.boom "U1" "abc" "C" "t").2 = 1 ∧
    getMessages (addPlacement initialData "2025-03-03" Game.boom "U1" "abc" "C" "t").1
        "2025-03-03" Game.boom ≠ [] := by
  constructor
  · decide
  · decide

/-- C7 (corrected). `addPlacement` never throws (it is a total function returning a
position in 0..3), but malformed input is not discarded: any non-duplicate event
with a non-empty timestamp string — parseable or not — is appended to the ledger
(an unparseable one is simply ranked at numeric value 0), and an empty user id is
recorded like any other user. An empty timestamp falls back to the legacy
arrival-order path rather than being rejected. -/
theorem addPlacement_malformed_still_records (s : StoreData) (date : String) (g : Game)
    (user ts channel_id nowIso : String) (hts : ts ≠ "")
    (hnew : ((getMessages s date g).any
      (fun w => w.user_id == user && w.message_ts == ts)) = false) :
    getMessages (addPlacement s date g user ts channel_id nowIso).1 date g
        = getMessages s date g ++ [⟨user, channel_id, ts, nowIso⟩] ∧
    (addPlacement s date g user ts channel_id nowIso).2 ≤ 3 := by
  have hnew' : ((getMessages (ensureDay s date) date g).any
      (fun w => w.user_id == user && w.message_ts == ts)) = false := by
    rw [getMessages_ensureDay]
    exact hnew
  have h1 : addPlacement s date g user ts channel_id nowIso
      = (insertMessage (ensureDay s date) date g ⟨user, channel_id, ts, nowIso⟩,
         addPlacementResult (insertMessage (ensureDay s date) date g
           ⟨user, channel_id, ts, nowIso⟩) date g user ts) := by
    unfold addPlacement
    rw [if_neg hts]
    simp only [hnew', Bool.false_eq_true, if_false]
  rw [h1]
  constructor
  · show getMessages (insertMessage (ensureDay s date) date g _) date g = _
    rw [getMessages_insertMessage, getMessages_ensureDay]
  · exact addPlacementResult_le_three _ _ _ _ _

/-- Witness for C7: the unparseable timestamp "abc" is recorded into the ledger and
earns a (bounded) position. -/
theorem addPlacement_malformed_still_records_witness :
    getMessages (addPlacement initialData "2025-03-03" Game.boom "U1" "abc" "C" "t").1
        "2025-03-03" Game.boom
      = getMessages initialData "2025-03-03" Game.boom ++ [⟨"U1", "C", "abc", "t"⟩] ∧
    (addPlacement initialData "2025-03-03" Game.boom "U1" "abc" "C" "t").2 ≤ 3 :=
  addPlacement_malformed_still_records initialData "2025-03-03" Game.boom "U1" "abc" "C" "t"
    (by decide) (by decide)

theorem tsLt_iff (a b : String) :
    tsLt a b = true ↔ (parseSlackTs a).toQ < (parseSlackTs b).toQ ∨
      ((parseSlackTs a).toQ = (parseSlackTs b).toQ ∧ strLt a b = true) := by
  simp [tsLt, Dec.lt_iff, Dec.eqv_iff]

theorem tsLt_irrefl (a : String) : tsLt a a = false := by
  rw [Bool.eq_false_iff]
  intro h
  rcases (tsLt_iff a a).mp h with h | ⟨_, h⟩
  · exact lt_irrefl _ h
  · rw [strLt_irrefl] at h
    cases h

theorem tsLt_asymm {a b : String} (h : tsLt a b = true) : tsLt b a = false := by
  rw [Bool.eq_false_iff]
  intro h2
  rcases (tsLt_iff a b).mp h with h1 | ⟨he1, hs1⟩ <;>
    rcases (tsLt_iff b a).mp h2 with h2' | ⟨he2, hs2⟩
  · exact lt_asymm h1 h2'
  · exact absurd he2.symm (ne_of_lt h1)
  · exact absurd he1 (ne_of_gt h2')
  · rw [strLt_asymm hs1] at hs2
    cases hs2

theorem tsLt_trans {a b c : String} (h1 : tsLt a b = true) (h2 : tsLt b c = true) :
    tsLt a c = true := by
  rw [tsLt_iff] at h1 h2 ⊢
  rcases h1 with h1 | ⟨he1, hs1⟩ <;> rcases h2 with h2 | ⟨he2, hs2⟩
  · exact Or.inl (h1.trans h2)
  · exact Or.inl (he2 ▸ h1)
  · exact Or.inl (he1 ▸ h2)
  · exact Or.inr ⟨he1.trans he2, strLt_trans hs1 hs2⟩

theorem tsLt_conn {a b : String} (h1 : tsLt a b = false) (h2 : tsLt b a = false) : a = b := by
  have n1 : ¬ tsLt a b = true := by rw [h1]; exact Bool.false_ne_true
  have n2 : ¬ tsLt b a = true := by rw [h2]; exact Bool.false_ne_true
  rw [tsLt_iff] at n1 n2
  push_neg at n1 n2
  have he : (parseSlackTs a).toQ = (parseSlackTs b).toQ := le_antisymm n2.1 n1.1
  exact strLt_conn (Bool.eq_false_iff.mpr (n1.2 he)) (Bool.eq_false_iff.mpr (n2.2 he.symm))

theorem entryLe_total (a b : String × String) : (entryLe a b || entryLe b a) = true := by
  unfold entryLe
  by_cases h1 : tsLt a.2 b.2 = true
  · simp [h1]
  · by_cases h2 : tsLt b.2 a.2 = true
    · simp [h2]
    · rw [Bool.not_eq_true] at h1 h2
      simp only [h1, h2, Bool.false_eq_true, if_false, if_true]
      by_cases hs : strLt b.1 a.1 = true
      · simp [hs, strLt_asymm hs]
      · rw [Bool.not_eq_true] at hs
        simp [hs]

theorem entryLe_trans {a b c : String × String} (h1 : entryLe a b = true)
    (h2 : entryLe b c = true) : entryLe a c = true := by
  unfold entryLe at h1 h2 ⊢
  by_cases t1 : tsLt a.2 b.2 = true <;> by_cases t2 : tsLt b.2 c.2 = true
  · simp [tsLt_trans t1 t2]
  · rw [Bool.not_eq_true] at t2
    by_cases t3 : tsLt c.2 b.2 = true
    · rw [if_neg (by simp [t2]), if_pos t3] at h2
      cases h2
    · rw [Bool.not_eq_true] at t3
      have := tsLt_conn t2 t3
      simp [← this, t1]
  · rw [Bool.not_eq_true] at t1
    by_cases t3 : tsLt b.2 a.2 = true
    · rw [if_neg (by simp [t1]), if_pos t3] at h1
      cases h1
    · rw [Bool.not_eq_true] at t3
      have := tsLt_conn t1 t3
      simp [this, t2]
  · rw [Bool.not_eq_true] at t1 t2
    by_cases t3 : tsLt b.2 a.2 = true
    · rw [if_neg (by simp [t1]), if_pos t3] at h1
      cases h1
    · by_cases t4 : tsLt c.2 b.2 = true
      · rw [if_neg (by simp [t2]), if_pos t4] at h2
        cases h2
      · rw [Bool.not_eq_true] at t3 t4
        have e1 := tsLt_conn t1 t3
        have e2 := tsLt_conn t2 t4
        rw [if_neg (by simp [t1]), if_neg (by simp [t3])] at h1
        rw [if_neg (by simp [t2]), if_neg (by simp [t4])] at h2
        rw [if_neg (by rw [e1, e2]; simp [tsLt_irrefl]),
          if_neg (by rw [e1, e2]; simp [tsLt_irrefl])]
        rw [Bool.not_eq_true'] at h1 h2
        rw [Bool.not_eq_true']
        by_cases hca : strLt c.1 a.1 = true
        · by_cases hab : strLt a.1 b.1 = true
          · exact absurd (strLt_trans hca hab) (by rw [h2]; exact Bool.false_ne_true)
          · rw [Bool.not_eq_true] at hab
            have hab' : a.1 = b.1 := strLt_conn hab h1
            rw [← hab'] at h2
            exact absurd hca (by rw [h2]; exact Bool.false_ne_true)
        · rwa [Bool.not_eq_true] at hca

theorem entryLe_antisymm {a b : String × String} (h1 : entryLe a b = true)
    (h2 : entryLe b a = true) : a = b := by
  unfold entryLe at h1 h2
  by_cases t1 : tsLt a.2 b.2 = true
  · rw [if_neg (by simp [tsLt_asymm t1]), if_pos t1] at h2
    cases h2
  · by_cases t2 : tsLt b.2 a.2 = true
    · rw [if_neg t1, if_pos t2] at h1
      cases h1
    · rw [Bool.not_eq_true] at t1 t2
      have he2 : a.2 = b.2 := tsLt_conn t1 t2
      rw [if_neg (by simp [t1]), if_neg (by simp [t2])] at h1
      rw [if_neg (by simp [t2]), if_neg (by simp [t1])] at h2
      rw [Bool.not_eq_true'] at h1 h2
      have he1 : a.1 = b.1 := strLt_conn h2 h1
      obtain ⟨a1, a2⟩ := a
      obtain ⟨b1, b2⟩ := b
      simp only at he1 he2
      rw [he1, he2]

instance : IsTotal (String × String) entryRel :=
  ⟨fun a b => by
    rcases Bool.or_eq_true_iff.mp (entryLe_total a b) with h | h
    · exact Or.inl h
    · exact Or.inr h⟩

instance : IsTrans (String × String) entryRel :=
  ⟨fun _ _ _ => entryLe_trans⟩

instance : IsAntisymm (String × String) entryRel :=
  ⟨fun _ _ => entryLe_antisymm⟩

/-- The sort output is determined by the multiset of entries: two permutationally
equal entry lists have equal sorted forms, because `entryRel` is a total,
transitive, antisymmetric order. -/
theorem insertionSort_entry_eq {E₁ E₂ : List (String × String)} (h : E₁.Perm E₂) :
    List.insertionSort entryRel E₁ = List.insertionSort entryRel E₂ :=
  List.eq_of_perm_of_sorted
    ((List.perm_insertionSort entryRel E₁).trans (h.trans (List.perm_insertionSort entryRel E₂).symm))
    (List.sorted_insertionSort entryRel E₁) (List.sorted_insertionSort entryRel E₂)

theorem earliestMap_append (msgs : List Winner) (w : Winner) :
    earliestMap (msgs ++ [w]) = earliestUpd (earliestMap msgs) w := by
  unfold earliestMap
  rw [List.foldl_append]
  rfl

theorem earliestTsForUser_append (msgs : List Winner) (w : Winner) (u : String) :
    earliestTsForUser (msgs ++ [w]) u =
      (if w.user_id ≠ u then earliestTsForUser msgs u
       else
        match earliestTsForUser msgs u with
        | none => some w.message_ts
        | some cur => if tsLt w.message_ts cur then some w.message_ts
          else earliestTsForUser msgs u) := by
  unfold earliestTsForUser
  rw [List.foldl_append]
  rfl

/-- The `Map` built by `computePodiumFromMessages` holds, per user, exactly the value
that the `earliestTsForUser` scan of `addPlacement` computes. -/
theorem recGet_earliestMap (msgs : List Winner) (u : String) :
    recGet (earliestMap msgs) u = earliestTsForUser msgs u := by
  induction msgs using List.reverseRecOn with
  | nil => rfl
  | append_singleton msgs w ih =>
    rw [earliestMap_append, earliestTsForUser_append]
    by_cases hu : w.user_id = u
    · rw [if_neg (by simp [hu])]
      unfold earliestUpd
      rw [hu, ih]
      cases he : earliestTsForUser msgs u with
      | none =>
        dsimp only
        rw [recGet_recSet_self]
      | some cur =>
        dsimp only
        by_cases ht : tsLt w.message_ts cur = true
        · rw [if_pos ht, if_pos ht, recGet_recSet_self]
        · rw [Bool.not_eq_true] at ht
          rw [ht]
          simp only [Bool.false_eq_true, if_false]
          rw [ih, he]
    · rw [if_pos (by simp [hu])]
      unfold earliestUpd
      cases hw : recGet (earliestMap msgs) w.user_id with
      | none =>
        dsimp only
        rw [recGet_recSet_ne _ _ _ _ hu, ih]
      | some cur =>
        dsimp only
        split
        · rw [recGet_recSet_ne _ _ _ _ hu, ih]
        · exact ih

theorem earliestMap_keys_nodup (msgs : List Winner) :
    ((earliestMap msgs).map (fun e => e.1)).Nodup := by
  induction msgs using List.reverseRecOn with
  | nil => simp [earliestMap]
  | append_singleton msgs w ih =>
    rw [earliestMap_append]
    unfold earliestUpd
    cases hw : recGet (earliestMap msgs) w.user_id with
    | none =>
      dsimp only
      rw [recSet_keys, if_neg (by rw [hw]; simp)]
      rw [List.nodup_append]
      refine ⟨ih, List.nodup_singleton _, ?_⟩
      intro a ha hb
      simp only [List.mem_singleton] at hb
      subst hb
      have := (recGet_isSome_iff_mem (earliestMap msgs) w.user_id).mpr ha
      rw [hw] at this
      cases this
    | some cur =>
      dsimp only
      split
      · rw [recSet_keys, if_pos (by rw [hw]; rfl)]
        exact ih
      · exact ih

theorem earliestTsForUser_mem (msgs : List Winner) (u : String) (t : String)
    (h : earliestTsForUser msgs u = some t) :
    ∃ w ∈ msgs, w.user_id = u ∧ w.message_ts = t := by
  induction msgs using List.reverseRecOn with
  | nil => cases h
  | append_singleton msgs w ih =>
    rw [earliestTsForUser_append] at h
    by_cases hu : w.user_id = u
    · rw [if_neg (by simp [hu])] at h
      cases he : earliestTsForUser msgs u with
      | none =>
        rw [he] at h
        dsimp only at h
        refine ⟨w, by simp, hu, ?_⟩
        exact Option.some_inj.mp h
      | some cur =>
        rw [he] at h
        dsimp only at h
        by_cases ht : tsLt w.message_ts cur = true
        · rw [if_pos ht] at h
          exact ⟨w, by simp, hu, Option.some_inj.mp h⟩
        · rw [if_neg ht, ← he] at h
          obtain ⟨w', hw', hu', ht'⟩ := ih h
          exact ⟨w', by simp [hw'], hu', ht'⟩
    · rw [if_pos (by simp [hu])] at h
      obtain ⟨w', hw', hu', ht'⟩ := ih h
      exact ⟨w', by simp [hw'], hu', ht'⟩

theorem earliestTsForUser_none_iff (msgs : List Winner) (u : String) :
    earliestTsForUser msgs u = none ↔ ∀ w ∈ msgs, w.user_id ≠ u := by
  induction msgs using List.reverseRecOn with
  | nil => simp [earliestTsForUser]
  | append_singleton msgs w ih =>
    rw [earliestTsForUser_append]
    constructor
    · intro h
      by_cases hu : w.user_id = u
      · rw [if_neg (by simp [hu])] at h
        cases he : earliestTsForUser msgs u with
        | none => rw [he] at h; cases h
        | some cur =>
          rw [he] at h
          dsimp only at h
          split at h <;> cases h
      · rw [if_pos (by simp [hu])] at h
        intro w' hw'
        rcases List.mem_append.mp hw' with hh | hh
        · exact ih.mp h w' hh
        · simp only [List.mem_singleton] at hh
          subst hh
          exact hu
    · intro h
      have hu : w.user_id ≠ u := h w (by simp)
      rw [if_pos (by simp [hu])]
      exact ih.mpr (fun w' hw' => h w' (by simp [hw']))

theorem earliestMap_entry_mem (msgs : List Winner) (u t : String)
    (h : (u, t) ∈ earliestMap msgs) : ∃ w ∈ msgs, w.user_id = u ∧ w.message_ts = t := by
  have hg : recGet (earliestMap msgs) u = some t :=
    (mem_iff_recGet_of_nodup (earliestMap_keys_nodup msgs)).mp h
  rw [recGet_earliestMap] at hg
  exact earliestTsForUser_mem msgs u t hg

theorem recSet_append_of_none {α : Type} (l : List (String × α)) (k : String) (v : α)
    (h : recGet l k = none) : recSet l k v = l ++ [(k, v)] := by
  unfold recSet
  rw [if_neg]
  intro hs
  rw [Option.isSome_iff_exists] at hs
  obtain ⟨e, he⟩ := hs
  unfold recGet at h
  rw [he] at h
  cases h

theorem earliestUpd_fresh (acc : List (String × String)) (w : Winner)
    (h : recGet acc w.user_id = none) :
    earliestUpd acc w = acc ++ [(w.user_id, w.message_ts)] := by
  unfold earliestUpd
  rw [h]
  exact recSet_append_of_none _ _ _ h

/-- Appending an entry that every existing entry precedes sorts to the end. -/
theorem insertionSort_append_last (E : List (String × String)) (x : String × String)
    (hx : ∀ e ∈ E, entryLe e x = true) :
    List.insertionSort entryRel (E ++ [x]) = List.insertionSort entryRel E ++ [x] := by
  refine List.eq_of_perm_of_sorted
    ((List.perm_insertionSort entryRel (E ++ [x])).trans
      (((List.perm_insertionSort entryRel E).symm).append_right [x]))
    (List.sorted_insertionSort entryRel (E ++ [x])) ?_
  rw [List.Sorted, List.pairwise_append]
  refine ⟨List.sorted_insertionSort entryRel E, List.pairwise_singleton _ _, ?_⟩
  intro a ha b hb
  simp only [List.mem_singleton] at hb
  subst hb
  exact hx a ((List.perm_insertionSort entryRel E).mem_iff.mp ha)

theorem getPlacements_of_messages (s : StoreData) (date : String) (g : Game)
    (hne : getMessages s date g ≠ []) :
    getPlacements s date g
      = ((List.insertionSort entryRel (earliestMap (getMessages s date g))).map
          (fun e => e.1)).take 3 := by
  have hie : (getMessages s date g).isEmpty = false := by
    cases hm : getMessages s date g with
    | nil => exact absurd hm hne
    | cons a l => rfl
  simp only [getPlacements, computePodium, computePodiumFromMessages, getMessages_ensureDay,
    hie]
  simp

/-- C2 (corrected). Store-level closure holds only against later events: once the
timestamp-derived podium has 3 users, an event from a new user whose timestamp key is
strictly later than every recorded event returns 0 and leaves the podium unchanged.
(An earlier-timestamped event can still reseat the podium at this interface — see the
counterexample — which is why the policy layer gates on `placementsCount >= 3` before
calling `addPlacement`.) -/
theorem podium_closed_for_late_users (s : StoreData) (date : String) (g : Game)
    (user ts channel_id nowIso : String)
    (hts : ts ≠ "")
    (hne : getMessages s date g ≠ [])
    (hnotmem : ∀ w ∈ getMessages s date g, w.user_id ≠ user)
    (hlate : ∀ w ∈ getMessages s date g, tsLt w.message_ts ts = true)
    (hfull : (getPlacements s date g).length = 3) :
    (addPlacement s date g user ts channel_id nowIso).2 = 0 ∧
    getPlacements (addPlacement s date g user ts channel_id nowIso).1 date g
      = getPlacements s date g := by
  have hexf : ((getMessages (ensureDay s date) date g).any
      (fun w => w.user_id == user && w.message_ts == ts)) = false := by
    rw [getMessages_ensureDay, List.any_eq_false]
    intro w hw
    simp only [Bool.and_eq_true, beq_iff_eq, not_and]
    intro hu
    exact absurd hu (hnotmem w hw)
  have h1 : addPlacement s date g user ts channel_id nowIso
      = (insertMessage (ensureDay s date) date g ⟨user, channel_id, ts, nowIso⟩,
         addPlacementResult (insertMessage (ensureDay s date) date g
           ⟨user, channel_id, ts, nowIso⟩) date g user ts) := by
    unfold addPlacement
    rw [if_neg hts]
    simp only [hexf, Bool.false_eq_true, if_false]
  set S := insertMessage (ensureDay s date) date g
    (⟨user, channel_id, ts, nowIso⟩ : Winner) with hS
  have hSm : getMessages S date g = getMessages s date g
      ++ [(⟨user, channel_id, ts, nowIso⟩ : Winner)] := by
    rw [hS, getMessages_insertMessage, getMessages_ensureDay]
  have hfreshu : recGet (earliestMap (getMessages s date g)) user = none := by
    rw [recGet_earliestMap]
    exact (earliestTsForUser_none_iff _ _).mpr hnotmem
  have hE : earliestMap (getMessages S date g)
      = earliestMap (getMessages s date g) ++ [(user, ts)] := by
    rw [hSm, earliestMap_append, earliestUpd_fresh _ _ hfreshu]
  have hdom : ∀ e ∈ earliestMap (getMessages s date g), entryLe e (user, ts) = true := by
    intro e he
    obtain ⟨e1, e2⟩ := e
    obtain ⟨w, hw, hwu, hwt⟩ := earliestMap_entry_mem _ _ _ he
    have hl : tsLt e2 ts = true := hwt ▸ hlate w hw
    unfold entryLe
    rw [if_pos hl]
  have hsortS : List.insertionSort entryRel (earliestMap (getMessages S date g))
      = List.insertionSort entryRel (earliestMap (getMessages s date g)) ++ [(user, ts)] := by
    rw [hE]
    exact insertionSort_append_last _ _ hdom
  have hSne : getMessages S date g ≠ [] := by
    rw [hSm]
    simp
  have hlen : 3 ≤ (List.insertionSort entryRel
      (earliestMap (getMessages s date g))).length := by
    rw [getPlacements_of_messages s date g hne] at hfull
    rw [List.length_take, List.length_map] at hfull
    omega
  have hpodS : getPlacements S date g = getPlacements s date g := by
    rw [getPlacements_of_messages S date g hSne, getPlacements_of_messages s date g hne,
      hsortS, List.map_append, List.take_append_eq_append_take, List.length_map]
    rw [Nat.sub_eq_zero_of_le hlen]
    simp
  have hpodusers : ∀ x ∈ getPlacements s date g, x ≠ user := by
    intro x hx
    rw [getPlacements_of_messages s date g hne] at hx
    have hx2 := List.mem_of_mem_take hx
    obtain ⟨e, he, hex⟩ := List.mem_map.mp hx2
    have he2 := (List.perm_insertionSort entryRel _).mem_iff.mp he
    obtain ⟨e1, e2⟩ := e
    obtain ⟨w, hw, hwu, _⟩ := earliestMap_entry_mem _ _ _ he2
    simp only at hex
    rw [← hex, ← hwu]
    exact hnotmem w hw
  constructor
  · rw [h1]
    show addPlacementResult S date g user ts = 0
    simp only [addPlacementResult]
    have hcp : computePodium S date g = getPlacements s date g := by
      have := hpodS
      rw [getPlacements] at this
      rw [ensureDay_insertMessage_self] at this
      exact this
    rw [hcp]
    have hnone : (getPlacements s date g).findIdx? (fun x => x == user) = none := by
      rw [List.findIdx?_eq_none_iff]
      intro x hx
      simp only [beq_eq_false_iff_ne, ne_eq]
      exact hpodusers x hx
    rw [hnone]
  · rw [h1]
    show getPlacements S date g = getPlacements s date g
    exact hpodS

/-- A store with a full podium for 2025-03-03 boom: U1@10, U2@20, U3@30. -/
def threeSeatedStore : StoreData :=
  (addPlacement (addPlacement (addPlacement initialData "2025-03-03" Game.boom
    "U1" "10" "C" "t1").1 "2025-03-03" Game.boom "U2" "20" "C" "t2").1
    "2025-03-03" Game.boom "U3" "30" "C" "t3").1

/-- Counterexample for C2 as stated: with the podium already holding 3 distinct
users, a 4th distinct user posting an EARLIER timestamp (5 < 10) is awarded
position 1 and the podium changes — the store-level podium is not immutable
for arbitrary timestamps. -/
theorem podium_not_closed_for_earlier_event :
    (getPlacements threeSeatedStore "2025-03-03" Game.boom).length = 3 ∧
    (addPlacement threeSeatedStore "2025-03-03" Game.boom "U4" "5" "C" "t4").2 = 1 ∧
    getPlacements (addPlacement threeSeatedStore "2025-03-03" Game.boom "U4" "5" "C" "t4").1
        "2025-03-03" Game.boom ≠ getPlacements threeSeatedStore "2025-03-03" Game.boom := by
  refine ⟨by decide, by decide, by decide⟩

/-- Witness for C2: a 4th user strictly later than every recorded event (40 after
10, 20, 30) gets position 0 and leaves the podium untouched. -/
theorem podium_closed_for_late_users_witness :
    (addPlacement threeSeatedStore "2025-03-03" Game.boom "U4" "40" "C" "t4").2 = 0 ∧
    getPlacements (addPlacement threeSeatedStore "2025-03-03" Game.boom "U4" "40" "C" "t4").1
        "2025-03-03" Game.boom = getPlacements threeSeatedStore "2025-03-03" Game.boom :=
  podium_closed_for_late_users threeSeatedStore "2025-03-03" Game.boom "U4" "40" "C" "t4"
    (by decide) (by decide) (by decide) (by decide) (by decide)

/-- The scan result is minimal: no event of the same user is strictly earlier. -/
theorem earliestTsForUser_min (msgs : List Winner) (u : String) :
    ∀ t, earliestTsForUser msgs u = some t →
      ∀ w ∈ msgs, w.user_id = u → tsLt w.message_ts t = false := by
  induction msgs using List.reverseRecOn with
  | nil => intro t h; cases h
  | append_singleton msgs w0 ih =>
    intro t h w hw hwu
    rw [earliestTsForUser_append] at h
    rcases List.mem_append.mp hw with hold | hnew
    · by_cases hu0 : w0.user_id = u
      · rw [if_neg (by simp [hu0])] at h
        cases he : earliestTsForUser msgs u with
        | none => exact absurd hwu ((earliestTsForUser_none_iff _ _).mp he w hold)
        | some cur =>
          rw [he] at h
          dsimp only at h
          by_cases hlt : tsLt w0.message_ts cur = true
          · rw [if_pos hlt] at h
            have ht : t = w0.message_ts := (Option.some_inj.mp h).symm
            subst ht
            by_contra hc
            rw [Bool.not_eq_false] at hc
            have := ih cur he w hold hwu
            rw [tsLt_trans hc hlt] at this
            cases this
          · rw [if_neg hlt] at h
            rw [← Option.some_inj.mp h]
            exact ih cur he w hold hwu
      · rw [if_pos (by simp [hu0])] at h
        exact ih t h w hold hwu
    · simp only [List.mem_singleton] at hnew
      subst hnew
      rw [if_neg (by simp [hwu])] at h
      cases he : earliestTsForUser msgs u with
      | none =>
        rw [he] at h
        dsimp only at h
        rw [← Option.some_inj.mp h]
        exact tsLt_irrefl _
      | some cur =>
        rw [he] at h
        dsimp only at h
        by_cases hlt : tsLt w.message_ts cur = true
        · rw [if_pos hlt] at h
          rw [← Option.some_inj.mp h]
          exact tsLt_irrefl _
        · rw [if_neg hlt] at h
          rw [← Option.some_inj.mp h]
          exact eq_false_of_ne_true hlt

/-- The per-user earliest timestamp depends only on the multiset of events. -/
theorem earliestTsForUser_perm {l₁ l₂ : List Winner} (h : l₁.Perm l₂) (u : String) :
    earliestTsForUser l₁ u = earliestTsForUser l₂ u := by
  cases h1 : earliestTsForUser l₁ u with
  | none =>
    cases h2 : earliestTsForUser l₂ u with
    | none => rfl
    | some t =>
      obtain ⟨w, hw, hwu, _⟩ := earliestTsForUser_mem _ _ _ h2
      exact absurd hwu ((earliestTsForUser_none_iff _ _).mp h1 w (h.mem_iff.mpr hw))
  | some t1 =>
    cases h2 : earliestTsForUser l₂ u with
    | none =>
      obtain ⟨w, hw, hwu, _⟩ := earliestTsForUser_mem _ _ _ h1
      exact absurd hwu ((earliestTsForUser_none_iff _ _).mp h2 w (h.mem_iff.mp hw))
    | some t2 =>
      obtain ⟨w1, hw1, hwu1, hwt1⟩ := earliestTsForUser_mem _ _ _ h1
      obtain ⟨w2, hw2, hwu2, hwt2⟩ := earliestTsForUser_mem _ _ _ h2
      have m1 := earliestTsForUser_min l₂ u t2 h2 w1 (h.mem_iff.mp hw1) hwu1
      have m2 := earliestTsForUser_min l₁ u t1 h1 w2 (h.mem_iff.mpr hw2) hwu2
      rw [hwt1] at m1
      rw [hwt2] at m2
      rw [tsLt_conn m1 m2]

theorem mem_earliestMap_iff (msgs : List Winner) (u t : String) :
    (u, t) ∈ earliestMap msgs ↔ earliestTsForUser msgs u = some t := by
  rw [mem_iff_recGet_of_nodup (earliestMap_keys_nodup msgs), recGet_earliestMap]

theorem mem_keys_earliestMap_iff (msgs : List Winner) (u : String) :
    u ∈ (earliestMap msgs).map (fun e => e.1) ↔ ∃ w ∈ msgs, w.user_id = u := by
  rw [← recGet_isSome_iff_mem, recGet_earliestMap]
  constructor
  · intro h
    cases he : earliestTsForUser msgs u with
    | none => rw [he] at h; cases h
    | some t =>
      obtain ⟨w, hw, hwu, _⟩ := earliestTsForUser_mem _ _ _ he
      exact ⟨w, hw, hwu⟩
  · rintro ⟨w, hw, hwu⟩
    cases he : earliestTsForUser msgs u with
    | some t => rfl
    | none => exact absurd hwu ((earliestTsForUser_none_iff _ _).mp he w hw)

/-- The event quadruple `(user, ts, channel, created)` as the stored message. -/
def toWinner (e : String × String × String × String) : Winner :=
  ⟨e.1, e.2.2.1, e.2.1, e.2.2.2⟩

/-- Record a batch of events through `addPlacement`, in list order. -/
def recordEvents (s : StoreData) (date : String) (g : Game)
    (l : List (String × String × String × String)) : StoreData :=
  l.foldl (fun s e => (addPlacement s date g e.1 e.2.1 e.2.2.1 e.2.2.2).1) s

theorem recordEvents_cons (s : StoreData) (date : String) (g : Game)
    (e : String × String × String × String) (es : List (String × String × String × String)) :
    recordEvents s date g (e :: es)
      = recordEvents (addPlacement s date g e.1 e.2.1 e.2.2.1 e.2.2.2).1 date g es := rfl

/-- One minimisation step over timestamps (spec side). -/
def minStep (acc : Option String) (t : String) : Option String :=
  match acc with
  | none => some t
  | some cur => if tsLt t cur then some t else acc

/-- The earliest timestamp of a list (spec side). -/
def minFold (ts : List String) : Option String := ts.foldl minStep none

theorem minFold_append (A : List String) (t : String) :
    minFold (A ++ [t]) = minStep (minFold A) t := by
  unfold minFold
  rw [List.foldl_append]
  rfl

/-- The `addPlacement` scan equals the spec-side minimum over the user's timestamps. -/
theorem earliestTsForUser_eq_minFold (msgs : List Winner) (u : String) :
    earliestTsForUser msgs u
      = minFold ((msgs.filter (fun w => w.user_id == u)).map (fun w => w.message_ts)) := by
  induction msgs using List.reverseRecOn with
  | nil => rfl
  | append_singleton msgs w ih =>
    rw [earliestTsForUser_append, List.filter_append, List.map_append]
    by_cases hu : w.user_id = u
    · rw [if_neg (by simp [hu])]
      rw [show (List.map (fun w => w.message_ts)
            (List.filter (fun w => w.user_id == u) [w])) = [w.message_ts] from by simp [hu]]
      rw [minFold_append, ← ih]
      cases earliestTsForUser msgs u with
      | none => rfl
      | some cur => rfl
    · rw [if_pos (by simp [hu])]
      rw [show (List.map (fun w => w.message_ts)
            (List.filter (fun w => w.user_id == u) [w])) = [] from by simp [hu]]
      rw [List.append_nil]
      exact ih

/-- Modelled from the spec's ordering rule (§4.3 steps 1–2): a user's earliest event,
as the minimum of their raw `(user, ts)` events under the numeric-then-string order. -/
def specEarliest (l : List (String × String)) (u : String) : Option String :=
  minFold ((l.filter (fun e => e.1 == u)).map (fun e => e.2))

/-- Modelled from the spec's ordering rule (§4.3 step 3): users compared by
`(earliest numeric ts, earliest raw ts, user_id)` ascending. -/
def specUserLe (l : List (String × String)) (u v : String) : Bool :=
  entryLe (u, (specEarliest l u).getD "") (v, (specEarliest l v).getD "")

def specUserRel (l : List (String × String)) (u v : String) : Prop :=
  specUserLe l u v = true

instance (l : List (String × String)) : DecidableRel (specUserRel l) :=
  fun u v => show Decidable (specUserLe l u v = true) from inferInstance

instance (l : List (String × String)) : IsTotal String (specUserRel l) :=
  ⟨fun u v => by
    rcases Bool.or_eq_true_iff.mp (entryLe_total (u, (specEarliest l u).getD "")
      (v, (specEarliest l v).getD "")) with h | h
    · exact Or.inl h
    · exact Or.inr h⟩

instance (l : List (String × String)) : IsTrans String (specUserRel l) :=
  ⟨fun _ _ _ h1 h2 => entryLe_trans h1 h2⟩

instance (l : List (String × String)) : IsAntisymm String (specUserRel l) :=
  ⟨fun u v h1 h2 => congrArg Prod.fst (entryLe_antisymm h1 h2)⟩

/-- Modelled from the spec (§4.3 steps 1–4): the podium is the first 3 users in
ascending `(earliest numeric ts, earliest raw ts string, user_id)` order. -/
def podiumSpec (l : List (String × String)) : List String :=
  (List.insertionSort (specUserRel l) ((l.map (fun e => e.1)).dedup)).take 3

/-- The spec-side per-user earliest agrees with the code's scan over the
corresponding stored messages. -/
theorem specEarliest_eq (l : List (String × String × String × String)) (u : String) :
    specEarliest (l.map (fun e => (e.1, e.2.1))) u
      = earliestTsForUser (l.map toWinner) u := by
  unfold specEarliest
  rw [earliestTsForUser_eq_minFold]
  congr 1
  rw [List.filter_map, List.filter_map, List.map_map, List.map_map]
  rfl

theorem addPlacement_state_new (s : StoreData) (date : String) (g : Game)
    (u ts ch nowIso : String) (hts : ts ≠ "")
    (hexf : ((getMessages s date g).any
      (fun w => w.user_id == u && w.message_ts == ts)) = false) :
    (addPlacement s date g u ts ch nowIso).1
      = insertMessage (ensureDay s date) date g ⟨u, ch, ts, nowIso⟩ := by
  have hexf' : ((getMessages (ensureDay s date) date g).any
      (fun w => w.user_id == u && w.message_ts == ts)) = false := by
    rw [getMessages_ensureDay]
    exact hexf
  unfold addPlacement
  rw [if_neg hts]
  simp only [hexf', Bool.false_eq_true, if_false]

/-- Recording a batch of fresh, pairwise-distinct events appends exactly their
messages (in arrival order) to the date+game ledger. -/
theorem recordEvents_messages (date : String) (g : Game) :
    ∀ (l : List (String × String × String × String)) (s : StoreData),
      (∀ e ∈ l, e.2.1 ≠ "") →
      (∀ e ∈ l, ∀ w ∈ getMessages s date g, ¬(w.user_id = e.1 ∧ w.message_ts = e.2.1)) →
      ((l.map (fun e => (e.1, e.2.1))).Nodup) →
      getMessages (recordEvents s date g l) date g
        = getMessages s date g ++ l.map toWinner := by
  intro l
  induction l with
  | nil =>
    intro s _ _ _
    simp [recordEvents]
  | cons e es ih =>
    intro s hts hfresh hdist
    have hexf : ((getMessages s date g).any
        (fun w => w.user_id == e.1 && w.message_ts == e.2.1)) = false := by
      rw [List.any_eq_false]
      intro w hw
      have hne := hfresh e (List.mem_cons_self e es) w hw
      simp only [Bool.and_eq_true, beq_iff_eq, not_and]
      intro h1 h2
      exact hne ⟨h1, h2⟩
    have hstate : (addPlacement s date g e.1 e.2.1 e.2.2.1 e.2.2.2).1
        = insertMessage (ensureDay s date) date g (toWinner e) :=
      addPlacement_state_new s date g e.1 e.2.1 e.2.2.1 e.2.2.2
        (hts e (List.mem_cons_self e es)) hexf
    rw [recordEvents_cons, hstate]
    rw [List.map_cons] at hdist
    rw [List.nodup_cons] at hdist
    rw [ih (insertMessage (ensureDay s date) date g (toWinner e))
      (fun e' he' => hts e' (List.mem_cons_of_mem e he'))
      (by
        intro e' he' w hw
        rw [getMessages_insertMessage, getMessages_ensureDay] at hw
        rcases List.mem_append.mp hw with hold | hnew
        · exact hfresh e' (List.mem_cons_of_mem e he') w hold
        · simp only [List.mem_singleton] at hnew
          subst hnew
          rintro ⟨h1, h2⟩
          have : (e.1, e.2.1) ∈ es.map (fun e => (e.1, e.2.1)) := by
            rw [show ((e.1, e.2.1) : String × String) = (e'.1, e'.2.1) from by
              rw [← h1, ← h2]; rfl]
            exact List.mem_map.mpr ⟨e', he', rfl⟩
          exact hdist.1 this)
      hdist.2]
    rw [getMessages_insertMessage, getMessages_ensureDay, List.map_cons]
    rw [List.append_assoc]
    rfl

theorem getPlacements_initial (date : String) (g : Game) :
    getPlacements initialData date g = [] := by
  have h1 : getMessages (ensureDay initialData date) date g = [] := by
    rw [getMessages_ensureDay]
    rfl
  have h2 : legacyList (ensureDay initialData date) date g = none := by
    unfold legacyList
    have hp := (ensureDay_fields initialData date).2.1
    rw [hp]
    rw [if_neg (by simp [recGet, initialData])]
    rw [recGet_recSet_self]
    cases g <;> rfl
  simp only [getPlacements, computePodium, h1, h2]
  rfl

/-- Specialisation of sorted-permutation uniqueness to the spec-side user order. -/
theorem sorted_eq_of_perm_spec (l : List (String × String)) {L₁ L₂ : List String}
    (hperm : L₁.Perm (List.insertionSort (specUserRel l) L₂))
    (hs : List.Sorted (specUserRel l) L₁) :
    L₁ = List.insertionSort (specUserRel l) L₂ :=
  List.eq_of_perm_of_sorted hperm hs (List.sorted_insertionSort (specUserRel l) L₂)

set_option maxHeartbeats 1000000 in
/-- C1 (confirmed). Timestamp-order invariance: recording any finite batch of events
with pairwise-distinct `(user, ts)` into a fresh store yields the same podium under
every permutation of arrival order, and that podium is the spec's: the first 3 users
ordered ascending by (numeric earliest timestamp, its raw string, user id). -/
theorem timestamp_order_invariance (date : String) (g : Game)
    (l₁ l₂ : List (String × String × String × String))
    (hperm : l₁.Perm l₂)
    (hdist : (l₁.map (fun e => (e.1, e.2.1))).Nodup)
    (hts : ∀ e ∈ l₁, e.2.1 ≠ "") :
    getPlacements (recordEvents initialData date g l₁) date g
        = getPlacements (recordEvents initialData date g l₂) date g ∧
    getPlacements (recordEvents initialData date g l₁) date g
        = podiumSpec (l₁.map (fun e => (e.1, e.2.1))) := by
  have hdist₂ : (l₂.map (fun e => (e.1, e.2.1))).Nodup :=
    ((hperm.map (fun e => (e.1, e.2.1))).nodup_iff).mp hdist
  have hts₂ : ∀ e ∈ l₂, e.2.1 ≠ "" := fun e he => hts e (hperm.mem_iff.mpr he)
  have hfresh : ∀ (l : List (String × String × String × String)),
      ∀ e ∈ l, ∀ w ∈ getMessages initialData date g,
        ¬(w.user_id = e.1 ∧ w.message_ts = e.2.1) := by
    intro l e _ w hw
    exact absurd hw (List.not_mem_nil w)
  have hgm₁ : getMessages (recordEvents initialData date g l₁) date g = l₁.map toWinner := by
    have := recordEvents_messages date g l₁ initialData hts (hfresh l₁) hdist
    rwa [show getMessages initialData date g = [] from rfl, List.nil_append] at this
  have hgm₂ : getMessages (recordEvents initialData date g l₂) date g = l₂.map toWinner := by
    have := recordEvents_messages date g l₂ initialData hts₂ (hfresh l₂) hdist₂
    rwa [show getMessages initialData date g = [] from rfl, List.nil_append] at this
  by_cases hl : l₁ = []
  · subst hl
    have hl₂ : l₂ = [] := hperm.symm.eq_nil
    subst hl₂
    exact ⟨rfl, (getPlacements_initial date g).trans rfl⟩
  · have hl₂ : l₂ ≠ [] := by
      intro hc
      subst hc
      exact hl hperm.eq_nil
    have hne₁ : getMessages (recordEvents initialData date g l₁) date g ≠ [] := by
      rw [hgm₁]
      simp [hl]
    have hne₂ : getMessages (recordEvents initialData date g l₂) date g ≠ [] := by
      rw [hgm₂]
      simp [hl₂]
    have hgp₁ := getPlacements_of_messages _ date g hne₁
    have hgp₂ := getPlacements_of_messages _ date g hne₂
    rw [hgm₁] at hgp₁
    rw [hgm₂] at hgp₂
    have hperm_w : (l₁.map toWinner).Perm (l₂.map toWinner) := hperm.map toWinner
    have hE : (earliestMap (l₁.map toWinner)).Perm (earliestMap (l₂.map toWinner)) := by
      refine (List.perm_ext_iff_of_nodup
        (List.Nodup.of_map _ (earliestMap_keys_nodup _))
        (List.Nodup.of_map _ (earliestMap_keys_nodup _))).mpr ?_
      rintro ⟨u, t⟩
      rw [mem_earliestMap_iff, mem_earliestMap_iff, earliestTsForUser_perm hperm_w]
    have hsort := insertionSort_entry_eq hE
    constructor
    · rw [hgp₁, hgp₂, hsort]
    · rw [hgp₁]
      unfold podiumSpec
      have hkeyfact : ∀ p ∈ List.insertionSort entryRel (earliestMap (l₁.map toWinner)),
          (specEarliest (l₁.map (fun e => (e.1, e.2.1))) p.1).getD "" = p.2 := by
        rintro ⟨u, t⟩ hp
        have hmem : (u, t) ∈ earliestMap (l₁.map toWinner) :=
          (List.perm_insertionSort entryRel _).mem_iff.mp hp
        have he := (mem_earliestMap_iff _ _ _).mp hmem
        rw [specEarliest_eq l₁ u, he]
        rfl
      have hsortedM : List.Sorted (specUserRel (l₁.map (fun e => (e.1, e.2.1))))
          ((List.insertionSort entryRel (earliestMap (l₁.map toWinner))).map (fun e => e.1)) := by
        show List.Pairwise _ _
        rw [List.pairwise_map]
        refine List.Pairwise.imp_of_mem ?_
          (List.sorted_insertionSort entryRel (earliestMap (l₁.map toWinner)))
        intro a b ha hb hab
        show specUserLe _ a.1 b.1 = true
        unfold specUserLe
        rw [hkeyfact a ha, hkeyfact b hb]
        exact hab
      have hpermM : ((List.insertionSort entryRel (earliestMap (l₁.map toWinner))).map
            (fun e => e.1)).Perm
          (List.insertionSort (specUserRel (l₁.map (fun e => (e.1, e.2.1))))
            (((l₁.map (fun e => (e.1, e.2.1))).map (fun e => e.1)).dedup)) := by
        refine ((List.perm_insertionSort entryRel _).map _).trans ?_
        refine List.Perm.trans ?_ (List.perm_insertionSort (specUserRel _) _).symm
        refine (List.perm_ext_iff_of_nodup (earliestMap_keys_nodup _)
          (List.nodup_dedup _)).mpr ?_
        intro u
        rw [mem_keys_earliestMap_iff, List.mem_dedup]
        constructor
        · rintro ⟨w, hw, hwu⟩
          obtain ⟨e, he, hew⟩ := List.mem_map.mp hw
          refine List.mem_map.mpr ⟨(e.1, e.2.1), List.mem_map.mpr ⟨e, he, rfl⟩, ?_⟩
          rw [← hwu, ← hew]
          rfl
        · intro hu
          obtain ⟨p, hp, hpu⟩ := List.mem_map.mp hu
          obtain ⟨e, he, hep⟩ := List.mem_map.mp hp
          refine ⟨toWinner e, List.mem_map.mpr ⟨e, he, rfl⟩, ?_⟩
          rw [← hpu, ← hep]
          rfl
      set P : List (String × String) := l₁.map (fun e => (e.1, e.2.1)) with hP
      have hM := sorted_eq_of_perm_spec P hpermM hsortedM
      rw [hM]

/-- The spec's example events in arrival order: U1@100.0, U2@50.0, U3@75.0. -/
def eventsArrival : List (String × String × String × String) :=
  [("U1", "100.0", "C", "t1"), ("U2", "50.0", "C", "t2"), ("U3", "75.0", "C", "t3")]

/-- The same events delivered in a different order. -/
def eventsShuffled : List (String × String × String × String) :=
  [("U2", "50.0", "C", "t2"), ("U3", "75.0", "C", "t3"), ("U1", "100.0", "C", "t1")]

/-- Witness for C1 on the spec's example scenario. -/
theorem timestamp_order_invariance_witness :
    getPlacements (recordEvents initialData "2025-03-03" Game.boom eventsArrival)
        "2025-03-03" Game.boom
      = getPlacements (recordEvents initialData "2025-03-03" Game.boom eventsShuffled)
        "2025-03-03" Game.boom ∧
    getPlacements (recordEvents initialData "2025-03-03" Game.boom eventsArrival)
        "2025-03-03" Game.boom
      = podiumSpec (eventsArrival.map (fun e => (e.1, e.2.1))) :=
  timestamp_order_invariance "2025-03-03" Game.boom eventsArrival eventsShuffled
    (by decide) (by decide) (by decide)

/-- The week's baseline adjustments consulted by `weeklyTotals` (store.ts lines
317–323): the adjustment record stored under the range's week key, `{}` when the
`weekly_adjustments` field or the key is absent. -/
def weeklyBaselines (s : StoreData) (startDate endDate : String) : List (String × Int) :=
  (recGet ((s.weekly_adjustments).getD []) (weekKeyForRange startDate endDate)).getD []

/-- Every podium `weeklyTotals` visits: each date of the range crossed with the three
games, in iteration order (store.ts lines 324–330). -/
def podiumsInRange (s : StoreData) (startDate endDate : String) : List (List String) :=
  ((dateRange startDate endDate).map (fun date =>
    [Game.boom, Game.hadeda, Game.wednesday].map (fun g => computePodium s date g))).flatten

/-- The points a list of (user, weight) pairs awards to `u`: the sum of the weights
at the positions `u` occupies. -/
def pairPoints (u : String) (q : List (String × Int)) : Int :=
  ((q.filter (fun e => e.1 == u)).map (fun e => e.2)).sum

/-- The points one podium awards to `u`: the sum of the weights (5, 3, 1) at the
podium positions `u` occupies. -/
def podiumPointsFor (u : String) (p : List String) : Int :=
  pairPoints u (p.zip weights)

/-- The total points `u` earns from all podiums of the range. -/
def weeklyEarned (s : StoreData) (startDate endDate u : String) : Int :=
  ((podiumsInRange s startDate endDate).map (fun p => podiumPointsFor u p)).sum

theorem zip_weights_pos (p : List String) : ∀ e ∈ p.zip weights, 0 < e.2 := by
  rintro ⟨a, b⟩ he
  have hw := (List.of_mem_zip he).2
  simp only [weights, List.mem_cons, List.not_mem_nil, or_false] at hw
  rcases hw with h | h | h <;> omega

theorem pairPoints_nonneg (u : String) {q : List (String × Int)}
    (hpos : ∀ e ∈ q, 0 < e.2) : 0 ≤ pairPoints u q := by
  refine List.sum_nonneg ?_
  intro x hx
  rw [List.mem_map] at hx
  obtain ⟨e, he, rfl⟩ := hx
  exact le_of_lt (hpos e (List.mem_of_mem_filter he))

theorem podiumPointsFor_nonneg (u : String) (p : List String) : 0 ≤ podiumPointsFor u p :=
  pairPoints_nonneg u (zip_weights_pos p)

/-- The inner `forEach` of `weeklyTotals`: folding the positive-weight increments
over any (user, weight) list adds to each user exactly the sum of their weights,
creating the entry on first touch. -/
theorem recGet_pairFold (u : String) (q : List (String × Int)) :
    (∀ e ∈ q, 0 < e.2) → ∀ r : List (String × Int),
    recGet (q.foldl (fun r e =>
        if 0 < e.2 then recSet r e.1 ((recGet r e.1).getD 0 + e.2) else r) r) u
      = if pairPoints u q = 0 then recGet r u
        else some ((recGet r u).getD 0 + pairPoints u q) := by
  induction q with
  | nil =>
    intro _ r
    simp [pairPoints]
  | cons e q' ih =>
    intro hpos r
    have hpos' : ∀ x ∈ q', 0 < x.2 := fun x hx => hpos x (List.mem_cons_of_mem e hx)
    have hepos : 0 < e.2 := hpos e (List.mem_cons_self e q')
    have hq0 : 0 ≤ pairPoints u q' := pairPoints_nonneg u hpos'
    rw [List.foldl_cons, if_pos hepos, ih hpos']
    by_cases he : (e.1 == u) = true
    · have hu : e.1 = u := beq_iff_eq.mp he
      have hsum : pairPoints u (e :: q') = e.2 + pairPoints u q' := by
        simp [pairPoints, List.filter_cons, he]
      have hr' : recGet (recSet r e.1 ((recGet r e.1).getD 0 + e.2)) u
          = some ((recGet r u).getD 0 + e.2) := by
        rw [← hu]
        exact recGet_recSet_self r e.1 _
      by_cases h0 : pairPoints u q' = 0
      · rw [if_pos h0, hr', hsum, h0, add_zero, if_neg (by omega)]
      · rw [if_neg h0, hr', hsum, if_neg (by omega)]
        simp [add_assoc]
    · have hne : e.1 ≠ u := by simpa using he
      have hsum : pairPoints u (e :: q') = pairPoints u q' := by
        simp [pairPoints, List.filter_cons, he]
      rw [recGet_recSet_ne r e.1 u _ hne, hsum]

/-- `addPodiumPoints` adds to `u` exactly the weight sum of the positions `u` holds
on the podium. -/
theorem recGet_addPodiumPoints (r : List (String × Int)) (p : List String) (u : String) :
    recGet (addPodiumPoints r p) u
      = if podiumPointsFor u p = 0 then recGet r u
        else some ((recGet r u).getD 0 + podiumPointsFor u p) :=
  recGet_pairFold u (p.zip weights) (zip_weights_pos p) r

/-- Folding `addPodiumPoints` over a list of podiums adds to `u` the total of the
per-podium weight sums. -/
theorem recGet_podFold (u : String) (P : List (List String)) :
    ∀ r : List (String × Int),
    recGet (P.foldl addPodiumPoints r) u
      = if (P.map (fun p => podiumPointsFor u p)).sum = 0 then recGet r u
        else some ((recGet r u).getD 0 + (P.map (fun p => podiumPointsFor u p)).sum) := by
  induction P with
  | nil =>
    intro r
    simp
  | cons p P' ih =>
    intro r
    have ha : 0 ≤ podiumPointsFor u p := podiumPointsFor_nonneg u p
    have hS : 0 ≤ (P'.map (fun p => podiumPointsFor u p)).sum := by
      refine List.sum_nonneg ?_
      intro x hx
      rw [List.mem_map] at hx
      obtain ⟨p', _, rfl⟩ := hx
      exact podiumPointsFor_nonneg u p'
    rw [List.foldl_cons, ih, List.map_cons, List.sum_cons]
    by_cases h0 : podiumPointsFor u p = 0
    · have hr1 : recGet (addPodiumPoints r p) u = recGet r u := by
        rw [recGet_addPodiumPoints, if_pos h0]
      rw [hr1, h0, zero_add]
    · have hr1 : recGet (addPodiumPoints r p) u
          = some ((recGet r u).getD 0 + podiumPointsFor u p) := by
        rw [recGet_addPodiumPoints, if_neg h0]
      rw [hr1]
      by_cases hS0 : (P'.map (fun p => podiumPointsFor u p)).sum = 0
      · rw [if_pos hS0, hS0, add_zero, if_neg h0]
      · rw [if_neg hS0, if_neg (by omega)]
        simp [add_assoc]

/-- Seeding the accumulator (store.ts lines 321–323): when the baseline record's
keys are duplicate-free (as a JS object's keys always are), the seeded accumulator
reads back exactly the baseline value, falling through to the initial accumulator
for users without a baseline. -/
theorem recGet_seedFold (u : String) (q : List (String × Int)) :
    (q.map (fun e => e.1)).Nodup → ∀ r₀ : List (String × Int),
    recGet (q.foldl (fun r e => recSet r e.1 e.2) r₀) u
      = (recGet q u).or (recGet r₀ u) := by
  induction q with
  | nil =>
    intro _ r₀
    rfl
  | cons e q' ih =>
    intro hq r₀
    rw [List.map_cons, List.nodup_cons] at hq
    rw [List.foldl_cons, ih hq.2]
    by_cases he : (e.1 == u) = true
    · have hu : e.1 = u := beq_iff_eq.mp he
      have hq' : recGet q' u = none := by
        cases hg : recGet q' u with
        | none => rfl
        | some v =>
          exfalso
          have hmem : u ∈ q'.map (fun x => x.1) :=
            (recGet_isSome_iff_mem q' u).mp (by rw [hg]; rfl)
          rw [← hu] at hmem
          exact hq.1 hmem
      rw [hq', recGet_cons_eq he, Option.none_or, ← hu]
      exact recGet_recSet_self r₀ e.1 e.2
    · have hef : (e.1 == u) = false := by simpa using he
      rw [recGet_cons_ne hef, recGet_recSet_ne r₀ e.1 u e.2 (by simpa using hef)]

/-- `recSet` keeps a record's key list duplicate-free. -/
theorem recSet_keys_nodup {α : Type} (l : List (String × α)) (k : String) (v : α)
    (h : (l.map (fun e => e.1)).Nodup) : ((recSet l k v).map (fun e => e.1)).Nodup := by
  rw [recSet_keys]
  by_cases hs : (recGet l k).isSome
  · rw [if_pos hs]
    exact h
  · rw [if_neg hs]
    rw [List.nodup_append]
    refine ⟨h, List.nodup_singleton k, ?_⟩
    intro a ha hak
    simp only [List.mem_singleton] at hak
    exact hs ((recGet_isSome_iff_mem l k).mpr (hak ▸ ha))

theorem seedFold_keys_nodup (q : List (String × Int)) :
    ∀ r : List (String × Int), (r.map (fun e => e.1)).Nodup →
    ((q.foldl (fun r e => recSet r e.1 e.2) r).map (fun e => e.1)).Nodup := by
  induction q with
  | nil => intro r h; exact h
  | cons e q' ih =>
    intro r h
    rw [List.foldl_cons]
    exact ih _ (recSet_keys_nodup r e.1 e.2 h)

theorem pairFold_keys_nodup (q : List (String × Int)) :
    ∀ r : List (String × Int), (r.map (fun e => e.1)).Nodup →
    ((q.foldl (fun r e =>
        if 0 < e.2 then recSet r e.1 ((recGet r e.1).getD 0 + e.2) else r) r).map
      (fun e => e.1)).Nodup := by
  induction q with
  | nil => intro r h; exact h
  | cons e q' ih =>
    intro r h
    rw [List.foldl_cons]
    by_cases hp : 0 < e.2
    · rw [if_pos hp]
      exact ih _ (recSet_keys_nodup r e.1 _ h)
    · rw [if_neg hp]
      exact ih _ h

theorem addPodiumPoints_keys_nodup (r : List (String × Int)) (p : List String)
    (h : (r.map (fun e => e.1)).Nodup) :
    ((addPodiumPoints r p).map (fun e => e.1)).Nodup :=
  pairFold_keys_nodup (p.zip weights) r h

theorem podFold_keys_nodup (P : List (List String)) :
    ∀ r : List (String × Int), (r.map (fun e => e.1)).Nodup →
    ((P.foldl addPodiumPoints r).map (fun e => e.1)).Nodup := by
  induction P with
  | nil => intro r h; exact h
  | cons p P' ih =>
    intro r h
    rw [List.foldl_cons]
    exact ih _ (addPodiumPoints_keys_nodup r p h)

theorem find?_eq_head?_filter {α : Type} (p : α → Bool) (l : List α) :
    l.find? p = (l.filter p).head? := by
  induction l with
  | nil => rfl
  | cons a t ih =>
    cases ha : p a with
    | true => rw [List.find?_cons_of_pos _ ha, List.filter_cons, if_pos ha, List.head?_cons]
    | false =>
      rw [List.find?_cons_of_neg _ (by simp [ha]), List.filter_cons, if_neg (by simp [ha]), ih]

/-- Looking a user up in the leaderboard is insensitive to the output sort: with
duplicate-free user ids, `find?` returns the same row on any permutation. -/
theorem find?_perm_of_nodup_keys (L₁ L₂ : List UserPoints) (u : String)
    (h : L₁.Perm L₂) (hnd : (L₁.map (fun r => r.user_id)).Nodup) :
    L₁.find? (fun r => r.user_id == u) = L₂.find? (fun r => r.user_id == u) := by
  rw [find?_eq_head?_filter, find?_eq_head?_filter]
  have hperm : (L₁.filter (fun r => r.user_id == u)).Perm
      (L₂.filter (fun r => r.user_id == u)) := h.filter _
  cases hf : L₁.filter (fun r => r.user_id == u) with
  | nil =>
    rw [hf] at hperm
    rw [List.perm_nil.mp hperm.symm]
  | cons a t =>
    have ht : t = [] := by
      cases t with
      | nil => rfl
      | cons b t' =>
        exfalso
        have hsub : (a :: b :: t').Sublist L₁ := by
          rw [← hf]
          exact List.filter_sublist L₁
        have hnd2 : ((a :: b :: t').map (fun r => r.user_id)).Nodup :=
          hnd.sublist (hsub.map _)
        have hau : (a.user_id == u) = true := by
          have hmem : a ∈ L₁.filter (fun r => r.user_id == u) := by
            rw [hf]
            exact List.mem_cons_self a (b :: t')
          have hpa := List.of_mem_filter hmem
          exact hpa
        have hbu : (b.user_id == u) = true := by
          have hmem : b ∈ L₁.filter (fun r => r.user_id == u) := by
            rw [hf]
            exact List.mem_cons_of_mem a (List.mem_cons_self b t')
          have hpb := List.of_mem_filter hmem
          exact hpb
        rw [List.map_cons, List.map_cons, List.nodup_cons] at hnd2
        refine hnd2.1 ?_
        rw [List.mem_cons]
        exact Or.inl (by rw [beq_iff_eq.mp hau, beq_iff_eq.mp hbu])
    subst ht
    rw [hf] at hperm
    rw [List.perm_singleton.mp hperm.symm]

/-- The source's nested date/game loops (store.ts lines 324–330) visit exactly the
flattened podium list `podiumsInRange`. -/
theorem foldDates_eq (s : StoreData) (dates : List String) :
    ∀ r : List (String × Int),
    dates.foldl (fun r date =>
        [Game.boom, Game.hadeda, Game.wednesday].foldl (fun r g =>
          addPodiumPoints r (computePodium s date g)) r) r
      = ((dates.map (fun date =>
          [Game.boom, Game.hadeda, Game.wednesday].map
            (fun g => computePodium s date g))).flatten).foldl addPodiumPoints r := by
  induction dates with
  | nil => intro r; rfl
  | cons d ds ih =>
    intro r
    rw [List.foldl_cons, List.map_cons, List.flatten_cons, List.foldl_append, ih]
    rfl

/-- C5 (weighting correctness): over any date range, `weeklyTotals` credits each user
exactly the 5/3/1 weights of the podium positions they hold, summed across every
date+game in the range, on top of the week's baseline adjustment: under the (JS
object) assumption that the baseline record's keys are duplicate-free, the user's row
in the returned leaderboard carries points = baseline + earned weight sum; the row is
absent exactly when the user has no baseline entry and earns zero weight — in
particular a user on no podium and in no baseline gets no entry. -/
theorem weeklyTotals_weighting (s : StoreData) (startDate endDate u : String)
    (hB : ((weeklyBaselines s startDate endDate).map (fun e => e.1)).Nodup) :
    ((weeklyTotals s startDate endDate).find? (fun r => r.user_id == u)).map
        (fun r => r.points)
      = if recGet (weeklyBaselines s startDate endDate) u = none
            ∧ weeklyEarned s startDate endDate u = 0
        then none
        else some ((recGet (weeklyBaselines s startDate endDate) u).getD 0
          + weeklyEarned s startDate endDate u) := by
  have hwt : weeklyTotals s startDate endDate
      = List.insertionSort upRel
        (((podiumsInRange s startDate endDate).foldl addPodiumPoints
          ((weeklyBaselines s startDate endDate).foldl
            (fun r e => recSet r e.1 e.2) [])).map
          (fun e => UserPoints.mk e.1 e.2)) := by
    show List.insertionSort upRel
        (((dateRange startDate endDate).foldl (fun r date =>
            [Game.boom, Game.hadeda, Game.wednesday].foldl (fun r g =>
              addPodiumPoints r (computePodium s date g)) r)
          ((weeklyBaselines s startDate endDate).foldl
            (fun r e => recSet r e.1 e.2) [])).map
          (fun e => UserPoints.mk e.1 e.2)) = _
    rw [foldDates_eq]
    rfl
  have hndres : (((podiumsInRange s startDate endDate).foldl addPodiumPoints
        ((weeklyBaselines s startDate endDate).foldl
          (fun r e => recSet r e.1 e.2) [])).map (fun e => e.1)).Nodup :=
    podFold_keys_nodup _ _ (seedFold_keys_nodup _ _ (by simp))
  have hndmk : ((((podiumsInRange s startDate endDate).foldl addPodiumPoints
        ((weeklyBaselines s startDate endDate).foldl
          (fun r e => recSet r e.1 e.2) [])).map
        (fun e => UserPoints.mk e.1 e.2)).map (fun r => r.user_id)).Nodup := by
    rw [List.map_map]
    exact hndres
  rw [hwt,
    find?_perm_of_nodup_keys _ _ u
      (List.perm_insertionSort upRel _)
      (((List.perm_insertionSort upRel _).map (fun r => r.user_id)).nodup_iff.mpr hndmk),
    List.find?_map, Option.map_map]
  rw [(show (((podiumsInRange s startDate endDate).foldl addPodiumPoints
        ((weeklyBaselines s startDate endDate).foldl
          (fun r e => recSet r e.1 e.2) [])).find?
        ((fun r => r.user_id == u) ∘ fun e => UserPoints.mk e.1 e.2)).map
        ((fun r => r.points) ∘ fun e => UserPoints.mk e.1 e.2)
      = recGet ((podiumsInRange s startDate endDate).foldl addPodiumPoints
        ((weeklyBaselines s startDate endDate).foldl
          (fun r e => recSet r e.1 e.2) [])) u from rfl)]
  rw [recGet_podFold u (podiumsInRange s startDate endDate),
    recGet_seedFold u (weeklyBaselines s startDate endDate) hB]
  rw [(show ((podiumsInRange s startDate endDate).map
      (fun p => podiumPointsFor u p)).sum = weeklyEarned s startDate endDate u from rfl)]
  rw [recGet_nil]
  cases hBu : recGet (weeklyBaselines s startDate endDate) u with
  | none =>
    by_cases hE0 : weeklyEarned s startDate endDate u = 0
    · rw [if_pos hE0, if_pos ⟨rfl, hE0⟩, Option.none_or]
    · rw [if_neg hE0, if_neg (fun hc => hE0 hc.2), Option.none_or]
  | some v =>
    by_cases hE0 : weeklyEarned s startDate endDate u = 0
    · rw [if_pos hE0, if_neg (by simp)]
      show some v = some ((some v).getD 0 + weeklyEarned s startDate endDate u)
      rw [hE0]
      simp
    · rw [if_neg hE0, if_neg (by simp)]
      rfl

/-- A store with a 2025-W10 baseline record (U1: 2, U9: 7) and one Monday boom
podium U1/U2/U3 (earliest timestamps 100.0 < 200.0 < 300.0). -/
def weeklyStore : StoreData :=
  { placements := []
    counts := []
    daily_announced := []
    weekly_crowned := []
    weekly_kings := []
    weekly_adjustments := some [("2025-W10", [("U1", 2), ("U9", 7)])]
    messages := [("2025-03-03",
      { boom := [⟨"U1", "C", "100.0", "t1"⟩, ⟨"U2", "C", "200.0", "t2"⟩,
          ⟨"U3", "C", "300.0", "t3"⟩]
        hadeda := []
        wednesday := [] })] }

/-- Witness for C5: over the week 2025-03-03..07, U1 holds one podium 1st place
(5 points) and a baseline of 2, and the returned leaderboard row carries 7. -/
theorem weeklyTotals_weighting_witness :
    ((weeklyTotals weeklyStore "2025-03-03" "2025-03-07").find?
        (fun r => r.user_id == "U1")).map (fun r => r.points) = some 7 ∧
    recGet (weeklyBaselines weeklyStore "2025-03-03" "2025-03-07") "U1" = some 2 ∧
    weeklyEarned weeklyStore "2025-03-03" "2025-03-07" "U1" = 5 :=
  ⟨(weeklyTotals_weighting weeklyStore "2025-03-03" "2025-03-07" "U1" (by decide)).trans
      (by decide),
    by decide, by decide⟩
